import Mathlib

/-!
Verification of the mnemex short-term-memory store against its
natural-language specification.

The development shallowly embeds the Python sources:

* `src/stm-server/src/stm_server/core/decay.py` — decay scoring
  (`calculate_score`, `calculate_decay_lambda`, `calculate_halflife`);
* `src/src/stm_server/storage/jsonl_storage.py` — append-only JSONL storage
  with in-memory dict indexes and compaction;
* `src/src/stm_server/tools/touch.py` and
  `src/src/stm_server/tools/create_relation.py` — tool handlers;
* `src/src/cortexgraph/agents/scheduler.py` — post-save urgent check;
* `src/src/cortexgraph/core/activation.py`,
  `src/src/cortexgraph/storage/models.py`,
  `src/src/cortexgraph/storage/activation_index.py` — activation pipeline.

Modelling conventions: IEEE floats are modelled as real numbers; Python
dicts as association lists whose insert updates in place and otherwise
appends (Python dicts preserve insertion order); Python exceptions as
`Except String`; external calls (database reads, keyword extraction) as
oracle functions an environment record carries; wall-clock latency fields
are not modelled.  The spreading-activation worklist loop is written with
an explicit fuel argument; the fuel chosen by the caller dominates the
total number of queue pops the Python loop can perform, and every theorem
proved about the loop is a safety property that holds for every fuel.
-/

namespace Mnemex

/-! ### Python dict as an association list -/

/-- Python `dict[str, β]`: an association list with unique keys kept in
insertion order.  `dinsert` mirrors `d[k] = v` (update in place, else
append); `dlookup` mirrors `d.get(k)`; `derase` mirrors `del d[k]`. -/
abbrev Dict (β : Type) := List (String × β)

def dinsert {β : Type} : Dict β → String → β → Dict β
  | [], k, v => [(k, v)]
  | p :: rest, k, v => if p.1 = k then (k, v) :: rest else p :: dinsert rest k v

def dlookup {β : Type} : Dict β → String → Option β
  | [], _ => none
  | p :: rest, k => if p.1 = k then some p.2 else dlookup rest k

def derase {β : Type} : Dict β → String → Dict β
  | [], _ => []
  | p :: rest, k => if p.1 = k then rest else p :: derase rest k

/-- Keys of a dict, in insertion order (Python `d.keys()`). -/
def dkeys {β : Type} (d : Dict β) : List String := d.map Prod.fst

/-- Values of a dict, in insertion order (Python `d.values()`). -/
def dvalues {β : Type} (d : Dict β) : List β := d.map Prod.snd

/-! ### Data model (`storage/models.py`, spec section 3)

The stm_server `Memory` and `Relation` records.  `meta.extra` and relation
`metadata` are free-form string mappings; embeddings are real vectors. -/

inductive MemoryStatus
  | active
  | promoted
  | archived
deriving DecidableEq, Repr

structure MemoryMetadata where
  tags : List String
  source : Option String
  context : Option String
  extra : List (String × String)

structure Memory where
  id : String
  content : String
  meta : MemoryMetadata
  created_at : Int
  last_used : Int
  use_count : Nat
  strength : Real
  status : MemoryStatus
  promoted_at : Option Int
  promoted_to : Option String
  embed : Option (List Real)
  entities : List String

structure Relation where
  id : String
  from_memory_id : String
  to_memory_id : String
  relation_type : String
  strength : Real
  created_at : Int
  metadata : List (String × String)

/-! ### Append-only JSONL storage (`jsonl_storage.py`) -/

/-- One line of a JSONL file: a full record dump, or a tombstone
`{"id": …, "_deleted": true}`. -/
inductive JLine (β : Type)
  | record (payload : β)
  | tomb (id : String)

def JLine.isTomb {β : Type} : JLine β → Bool
  | .record _ => false
  | .tomb _ => true

/-- The id a line is keyed by, given how to read the id off a payload. -/
def JLine.lineId {β : Type} (idOf : β → String) : JLine β → String
  | .record p => idOf p
  | .tomb i => i

/-- `JSONLStorage.connect` load loop over one file: records upsert into the
map, tombstones remove.  (The deleted-id bookkeeping set is tracked in
`StorageState`, not here; the claims are about the id-to-record maps.) -/
def loadLines {β : Type} (idOf : β → String) : List (JLine β) → Dict β → Dict β
  | [], d => d
  | (.record p) :: rest, d => loadLines idOf rest (dinsert d (idOf p) p)
  | (.tomb i) :: rest, d => loadLines idOf rest (derase d i)

/-- In-memory state of one `JSONLStorage` instance: the two append-only
files and the indexes `_memories`, `_relations`, `_deleted_memory_ids`,
`_deleted_relation_ids`. -/
structure StorageState where
  memFile : List (JLine Memory)
  relFile : List (JLine Relation)
  mems : Dict Memory
  rels : Dict Relation
  deletedMemIds : List String
  deletedRelIds : List String

/-- Fresh storage on an empty directory, after `connect()`. -/
def StorageState.init : StorageState :=
  { memFile := [], relFile := [], mems := [], rels := [],
    deletedMemIds := [], deletedRelIds := [] }

/-- `JSONLStorage.save_memory`: update the in-memory map, append the full
record. -/
def saveMemory (st : StorageState) (m : Memory) : StorageState :=
  { st with mems := dinsert st.mems m.id m, memFile := st.memFile ++ [.record m] }

/-- The optional fields `JSONLStorage.update_memory` accepts; `none` means
the Python default `None`, i.e. leave the field unchanged. -/
structure UpdateArgs where
  last_used : Option Int := none
  use_count : Option Nat := none
  strength : Option Real := none
  status : Option MemoryStatus := none
  promoted_at : Option Int := none
  promoted_to : Option String := none

/-- The field-by-field mutation block of `update_memory` (each
`if x is not None: memory.x = x`). -/
def applyUpdate (m : Memory) (a : UpdateArgs) : Memory :=
  let m := match a.last_used with | some v => { m with last_used := v } | none => m
  let m := match a.use_count with | some v => { m with use_count := v } | none => m
  let m := match a.strength with | some v => { m with strength := v } | none => m
  let m := match a.status with | some v => { m with status := v } | none => m
  let m := match a.promoted_at with | some v => { m with promoted_at := v } | none => m
  let m := match a.promoted_to with | some v => { m with promoted_to := v } | none => m
  m

/-- `JSONLStorage.update_memory`: read-modify-append; returns `False` and
changes nothing when the id is absent. -/
def updateMemory (st : StorageState) (memory_id : String) (a : UpdateArgs) :
    Bool × StorageState :=
  match dlookup st.mems memory_id with
  | none => (false, st)
  | some m =>
    let m2 := applyUpdate m a
    (true, { st with mems := dinsert st.mems memory_id m2,
                     memFile := st.memFile ++ [.record m2] })

/-- `JSONLStorage.delete_memory`: append a tombstone and drop from the map;
`False` when absent. -/
def deleteMemory (st : StorageState) (memory_id : String) : Bool × StorageState :=
  if (dlookup st.mems memory_id).isSome then
    (true, { st with mems := derase st.mems memory_id,
                     deletedMemIds := memory_id :: st.deletedMemIds,
                     memFile := st.memFile ++ [.tomb memory_id] })
  else (false, st)

/-- `JSONLStorage.create_relation`: update the map, append the record
(storage level; the duplicate check lives in the tool handler). -/
def createRelation (st : StorageState) (r : Relation) : StorageState :=
  { st with rels := dinsert st.rels r.id r, relFile := st.relFile ++ [.record r] }

/-- `JSONLStorage.delete_relation`. -/
def deleteRelation (st : StorageState) (relation_id : String) : Bool × StorageState :=
  if (dlookup st.rels relation_id).isSome then
    (true, { st with rels := derase st.rels relation_id,
                     deletedRelIds := relation_id :: st.deletedRelIds,
                     relFile := st.relFile ++ [.tomb relation_id] })
  else (false, st)

/-- One mutating storage operation, for traces. -/
inductive StorageOp
  | saveMem (m : Memory)
  | updateMem (id : String) (a : UpdateArgs)
  | deleteMem (id : String)
  | createRel (r : Relation)
  | deleteRel (id : String)

def stepOp (st : StorageState) : StorageOp → StorageState
  | .saveMem m => saveMemory st m
  | .updateMem i a => (updateMemory st i a).2
  | .deleteMem i => (deleteMemory st i).2
  | .createRel r => createRelation st r
  | .deleteRel i => (deleteRelation st i).2

def runOps (ops : List StorageOp) : StorageState :=
  ops.foldl stepOp StorageState.init

/-- `JSONLStorage.compact`: rewrite each file with exactly the live map
values, and clear the tombstone bookkeeping sets. -/
def compact (st : StorageState) : StorageState :=
  { st with
    memFile := st.mems.map (fun p => JLine.record p.2),
    relFile := st.rels.map (fun p => JLine.record p.2),
    deletedMemIds := [], deletedRelIds := [] }

/-- A dict is well keyed when every entry is keyed by its payload's id. -/
def WellKeyed {β : Type} (idOf : β → String) (d : Dict β) : Prop :=
  ∀ p ∈ d, idOf p.2 = p.1

/-- Storage invariant: both maps have distinct keys and are keyed by record
ids. -/
def StorageInv (st : StorageState) : Prop :=
  (dkeys st.mems).Nodup ∧ (dkeys st.rels).Nodup ∧
    WellKeyed Memory.id st.mems ∧ WellKeyed Relation.id st.rels

/-! ### Decay scoring (`core/decay.py`) -/

/-- `calculate_score(use_count, last_used, strength, now, lambda_, beta)`:
`(use_count ^ beta) * exp(-lambda * time_delta) * strength` with
`time_delta = max(0, now - last_used)` and the use component zeroed when
`use_count == 0`.  The config defaults for `lambda_` and `beta` are passed
explicitly. -/
noncomputable def calculate_score (use_count : Nat) (last_used : Int)
    (strength : Real) (now : Int) (lambda_ beta : Real) : Real :=
  let time_delta : Int := max 0 (now - last_used)
  let use_component : Real := if 0 < use_count then (use_count : Real) ^ beta else 0
  let decay_component : Real := Real.exp (-lambda_ * (time_delta : Real))
  use_component * decay_component * strength

/-- `calculate_decay_lambda(halflife_days) = log(2) / (halflife_days * 86400)`. -/
noncomputable def calculate_decay_lambda (halflife_days : Real) : Real :=
  Real.log 2 / (halflife_days * 86400)

/-- `calculate_halflife(lambda_) = (log(2) / lambda_) / 86400`. -/
noncomputable def calculate_halflife (lambda_ : Real) : Real :=
  Real.log 2 / lambda_ / 86400

/-! ### Tool handlers (`tools/touch.py`, `tools/create_relation.py`) -/

/-- Response of `touch_memory_handler`.  The failure branch carries only
`success`/`message`; success reports the new counters.  The two decay
scores in the response are modelled without the 4-decimal display
rounding the handler applies with `round(…, 4)`. -/
structure TouchResponse where
  success : Bool
  use_count : Option Nat
  strength : Option Real
  old_score : Option Real
  new_score : Option Real

/-- `touch_memory_handler(db, {memory_id, boost_strength})`. -/
noncomputable def touch_memory_handler (st : StorageState) (memory_id : String)
    (boost_strength : Bool) (now : Int) (lambda_ beta : Real) :
    TouchResponse × StorageState :=
  match dlookup st.mems memory_id with
  | none =>
    ({ success := false, use_count := none, strength := none,
       old_score := none, new_score := none }, st)
  | some m =>
    let old_score := calculate_score m.use_count m.last_used m.strength now lambda_ beta
    let new_use_count := m.use_count + 1
    let new_strength := if boost_strength then min 2 (m.strength + 0.1) else m.strength
    let st2 := (updateMemory st memory_id
      { last_used := some now, use_count := some new_use_count,
        strength := some new_strength }).2
    let new_score := calculate_score new_use_count now new_strength now lambda_ beta
    ({ success := true, use_count := some new_use_count,
       strength := some new_strength,
       old_score := some old_score, new_score := some new_score }, st2)

/-- Python truthiness of the optional string filters in
`JSONLStorage.get_relations` (`if from_memory_id:`): `None` and the empty
string are falsy. -/
def optTruthy : Option String → Bool
  | none => false
  | some s => !(s = "")

/-- `JSONLStorage.get_relations(from_memory_id, to_memory_id,
relation_type)`: start from all relation values, apply each filter only
when its argument is truthy. -/
def get_relations (rels : Dict Relation) (from_memory_id to_memory_id
    relation_type : Option String) : List Relation :=
  let l := dvalues rels
  let l := if optTruthy from_memory_id then
    l.filter (fun r => r.from_memory_id = from_memory_id.getD ("")) else l
  let l := if optTruthy to_memory_id then
    l.filter (fun r => r.to_memory_id = to_memory_id.getD ("")) else l
  let l := if optTruthy relation_type then
    l.filter (fun r => r.relation_type = relation_type.getD ("")) else l
  l

/-- Response of `create_relation_handler`. -/
structure CreateRelationResponse where
  success : Bool
  existing_relation_id : Option String
  relation_id : Option String

/-- `create_relation_handler(db, arguments)`: verify both memories exist,
report a conflict when `get_relations` finds a relation with the same
`(from, to, type)` triple, otherwise create the relation under a freshly
generated UUID (`rid`, supplied by the caller like the injectable clock). -/
def create_relation_handler (st : StorageState) (rid : String) (now : Int)
    (from_id to_id relation_type : String) (strength : Real)
    (metadata : List (String × String)) :
    CreateRelationResponse × StorageState :=
  match dlookup st.mems from_id with
  | none => ({ success := false, existing_relation_id := none, relation_id := none }, st)
  | some _ =>
    match dlookup st.mems to_id with
    | none => ({ success := false, existing_relation_id := none, relation_id := none }, st)
    | some _ =>
      match get_relations st.rels (some from_id) (some to_id) (some relation_type) with
      | existing :: _ =>
        ({ success := false, existing_relation_id := some existing.id,
           relation_id := none }, st)
      | [] =>
        let r : Relation :=
          { id := rid, from_memory_id := from_id, to_memory_id := to_id,
            relation_type := relation_type, strength := strength,
            created_at := now, metadata := metadata }
        ({ success := true, existing_relation_id := none,
           relation_id := some rid }, createRelation st r)

/-- At most one relation per `(from, to, relation_type)` triple. -/
def RelTripleUnique (rels : Dict Relation) : Prop :=
  ∀ r1 ∈ dvalues rels, ∀ r2 ∈ dvalues rels,
    r1.from_memory_id = r2.from_memory_id → r1.to_memory_id = r2.to_memory_id →
      r1.relation_type = r2.relation_type → r1 = r2

/-! ### Scheduler post-save urgent check (`agents/scheduler.py`) -/

/-- `scheduler.calculate_score(memory_id)`: fetch from storage; a missing
memory scores `1.0` ("no action needed"); otherwise the core decay score
at the current clock with the configured decay parameters. -/
noncomputable def scheduler_calculate_score (mems : Dict Memory) (memory_id : String)
    (now : Int) (lambda_ beta : Real) : Real :=
  match dlookup mems memory_id with
  | none => 1.0
  | some m => calculate_score m.use_count m.last_used m.strength now lambda_ beta

/-- The action descriptor `Scheduler._handle_urgent_memory` returns. -/
structure UrgentAction where
  memory_id : String
  score : Real
  dry_run : Bool
  action : String

/-- `Scheduler.post_save_check(memory_id)`: `None` when the score is at or
above `urgent_threshold`, otherwise the urgent-action descriptor
(`would_flag_urgent` in dry-run, `flagged_urgent` live). -/
noncomputable def post_save_check (dry_run : Bool) (urgent_threshold : Real)
    (mems : Dict Memory) (memory_id : String) (now : Int) (lambda_ beta : Real) :
    Option UrgentAction :=
  let score := scheduler_calculate_score mems memory_id now lambda_ beta
  if urgent_threshold ≤ score then none
  else some { memory_id := memory_id, score := score, dry_run := dry_run,
              action := if dry_run then "would_flag_urgent" else "flagged_urgent" }

/-! ### Activation models (`cortexgraph/storage/models.py`) -/

inductive ActivationSource
  | direct
  | spread_1hop
  | spread_2hop
  | spread_3hop
deriving DecidableEq, Repr

structure ActivationScore where
  memory_id : String
  base_relevance : Real
  temporal_score : Real
  spreading_score : Real
  final_score : Real
  source : ActivationSource
  matched_keywords : List String

/-- `ActivationScore.calculate`: `final = 0.5*base + 0.3*temporal +
0.2*spreading`, capped at `1.0`. -/
noncomputable def ActivationScore.calculate (memory_id : String)
    (base_relevance temporal_score spreading_score : Real)
    (source : ActivationSource) (matched_keywords : List String) : ActivationScore :=
  let final := 0.5 * base_relevance + 0.3 * temporal_score + 0.2 * spreading_score
  { memory_id := memory_id, base_relevance := base_relevance,
    temporal_score := temporal_score, spreading_score := spreading_score,
    final_score := min final 1, source := source,
    matched_keywords := matched_keywords }

/-- `ActivationContext` (the pydantic model constrains `max_memories` to
`[1,100]` and `activation_threshold` to `[0,1]`; `session_id` is unused by
`activate`). -/
structure ActivationContext where
  message : String
  keywords : List String
  already_activated : List String
  max_memories : Nat
  activation_threshold : Real
  enable_spreading : Bool

/-- `ActivationResult` (the two wall-clock latency fields are not
modelled; `activation_scores` keeps the `dict(top_k)` as the ranked list
of pairs it is built from). -/
structure ActivationResult where
  activated_memories : List String
  activation_scores : Dict ActivationScore
  direct_matches : List String
  spread_matches : List String
  total_candidates : Nat
  fallback_tier : String

/-! ### Activation index (`cortexgraph/storage/activation_index.py`) -/

structure ActivationGraph where
  keyword_to_memories : Dict (List String)
  entity_to_memories : Dict (List String)
  tag_to_memories : Dict (List String)
  outgoing_relations : Dict (List String)

/-- `ActivationGraph.find_by_keywords`: union of the postings of each
present keyword.  Python returns a set; the model returns the postings in
order and the caller deduplicates, which has the same membership. -/
def ActivationGraph.find_by_keywords (g : ActivationGraph)
    (keywords : List String) : List String :=
  keywords.flatMap (fun k => (dlookup g.keyword_to_memories k).getD [])

def ActivationGraph.find_by_entities (g : ActivationGraph)
    (entities : List String) : List String :=
  entities.flatMap (fun e => (dlookup g.entity_to_memories e).getD [])

def ActivationGraph.find_by_tags (g : ActivationGraph)
    (tags : List String) : List String :=
  tags.flatMap (fun t => (dlookup g.tag_to_memories t).getD [])

/-- `ActivationGraph.get_related_memories`: outgoing adjacency, `[]` when
absent. -/
def ActivationGraph.get_related_memories (g : ActivationGraph)
    (memory_id : String) : List String :=
  (dlookup g.outgoing_relations memory_id).getD []

/-! ### Activation service (`cortexgraph/core/activation.py`)

`ActivationService` reaches outside itself through the keyword extractor
and `db.get_memory`, both of which can raise; they are carried as
`Except`-valued oracles in an environment record, together with the
in-memory index graph (`self.graph`, always present here: `activate`
rebuilds it before use). -/

structure ActivationEnv where
  extract_keywords : String → Nat → Except String (List String)
  get_memory : String → Except String (Option Memory)
  graph : ActivationGraph

/-- `ActivationService._find_candidates`: union of keyword, entity
(lowercased) and tag (lowercased) matches, deduplicated (Python uses a
set). -/
def find_candidates (g : ActivationGraph) (keywords : List String) : List String :=
  (g.find_by_keywords keywords ++
    g.find_by_entities (keywords.map (fun k => k.toLower)) ++
    g.find_by_tags (keywords.map (fun k => k.toLower))).dedup

/-- `ActivationService._calculate_keyword_relevance`: ratio of matched to
query keywords over the union of lowercased tags, entities and content
keywords, clipped to `[0,1]`. -/
noncomputable def calculate_keyword_relevance (env : ActivationEnv)
    (memory : Memory) (keywords : List String) :
    Except String (Real × List String) :=
  if keywords = [] then .ok (0, [])
  else do
    let keywords_lower := (keywords.map (fun k => k.toLower)).dedup
    let memory_tags := memory.meta.tags.map (fun t => t.toLower)
    let memory_entities := memory.entities.map (fun e => e.toLower)
    let content_keywords ← env.extract_keywords memory.content 20
    let memory_terms :=
      (memory_tags ++ memory_entities ++
        content_keywords.map (fun k => k.toLower)).dedup
    let matched := keywords_lower.filter (fun k => k ∈ memory_terms)
    let relevance : Real := (matched.length : Real) / (keywords_lower.length : Real)
    .ok (min relevance 1, matched)

/-- Source tag by the parent's hop distance (`hop_distance == 0` →
`spread_1hop`, `== 1` → `spread_2hop`, else `spread_3hop`). -/
def hopSource (hop_distance : Nat) : ActivationSource :=
  if hop_distance = 0 then .spread_1hop
  else if hop_distance = 1 then .spread_2hop
  else .spread_3hop

/-- Mutable state threaded through `_apply_spreading_activation`: the
`activation_scores` and `memory_map` dicts the Python code mutates in
place, the visited set and the accumulated spread matches. -/
structure SpreadState where
  activation_scores : Dict ActivationScore
  memory_map : Dict Memory
  visited : List String
  spread_matches : List String

/-- The body run for each newly visited related memory: spreading score
`source_score * decay_per_hop ** (hop_distance + 1)` with
`decay_per_hop = 0.5`, temporal score `min(calculate_score(...)/2, 1)`,
base relevance `0`, and the `(related_id, hop_distance + 1,
spreading_score)` entry appended to the queue. -/
noncomputable def spreadVisit (now : Int) (lambda_ beta : Real)
    (hop_distance : Nat) (source_score : Real) (related_id : String)
    (mem : Memory) (st : SpreadState) :
    SpreadState × (String × Nat × Real) :=
  let spreading_score := source_score * (0.5 : Real) ^ (hop_distance + 1)
  let temporal_score :=
    min (calculate_score mem.use_count mem.last_used mem.strength now lambda_ beta / 2) 1
  let sc := ActivationScore.calculate related_id 0 temporal_score spreading_score
    (hopSource hop_distance) []
  ({ st with
      activation_scores := dinsert st.activation_scores related_id sc,
      spread_matches := st.spread_matches ++ [related_id] },
    (related_id, hop_distance + 1, spreading_score))

/-- The `for related_id in related_ids` loop of one queue pop.  Returns
the state as mutated so far, the queue entries appended so far and, when a
`db.get_memory` call raised, the exception (the Python dict mutations
before the raise persist). -/
noncomputable def processChildren (env : ActivationEnv) (now : Int)
    (lambda_ beta : Real) (hop_distance : Nat) (source_score : Real) :
    List String → SpreadState → List (String × Nat × Real) →
      SpreadState × List (String × Nat × Real) × Option String
  | [], st, newq => (st, newq, none)
  | related_id :: rest, st, newq =>
    if related_id ∈ st.visited then
      processChildren env now lambda_ beta hop_distance source_score rest st newq
    else
      let st1 := { st with visited := st.visited ++ [related_id] }
      match dlookup st1.memory_map related_id with
      | some mem =>
        let vr := spreadVisit now lambda_ beta hop_distance source_score related_id mem st1
        processChildren env now lambda_ beta hop_distance source_score rest vr.1
          (newq ++ [vr.2])
      | none =>
        match env.get_memory related_id with
        | .error e => (st1, newq, some e)
        | .ok none =>
          processChildren env now lambda_ beta hop_distance source_score rest st1 newq
        | .ok (some mem) =>
          let st2 := { st1 with memory_map := dinsert st1.memory_map related_id mem }
          let vr := spreadVisit now lambda_ beta hop_distance source_score related_id mem st2
          processChildren env now lambda_ beta hop_distance source_score rest vr.1
            (newq ++ [vr.2])

/-- The `while queue` worklist of `_apply_spreading_activation`.  `fuel`
bounds the number of pops; the caller passes more fuel than the loop can
consume, and every property proved below holds for every fuel.  A pop
whose `hop_distance ≥ max_hops = 3` spreads no further. -/
noncomputable def spreadLoop (env : ActivationEnv) (now : Int)
    (lambda_ beta : Real) :
    Nat → List (String × Nat × Real) → SpreadState → SpreadState × Option String
  | 0, _, st => (st, none)
  | _ + 1, [], st => (st, none)
  | fuel + 1, (current_id, hop_distance, source_score) :: rest, st =>
    if 3 ≤ hop_distance then spreadLoop env now lambda_ beta fuel rest st
    else
      let related_ids := env.graph.get_related_memories current_id
      match processChildren env now lambda_ beta hop_distance source_score
        related_ids st [] with
      | (st2, _, some e) => (st2, some e)
      | (st2, newq, none) => spreadLoop env now lambda_ beta fuel (rest ++ newq) st2

/-- `ActivationService._apply_spreading_activation`: queue seeded with the
direct matches at hop 0 carrying their final scores, visited set seeded
with the direct matches.  Returns the final mutable state and the raised
exception, if any (`none` means the spread set in the state is the return
value). -/
noncomputable def apply_spreading_activation (env : ActivationEnv) (now : Int)
    (lambda_ beta : Real) (direct_matches : List String)
    (activation_scores : Dict ActivationScore) (memory_map : Dict Memory) :
    SpreadState × Option String :=
  let queue := direct_matches.filterMap (fun mem_id =>
    (dlookup activation_scores mem_id).map (fun sc => (mem_id, 0, sc.final_score)))
  let st : SpreadState :=
    { activation_scores := activation_scores, memory_map := memory_map,
      visited := direct_matches, spread_matches := [] }
  let fuel := queue.length +
    ((dvalues env.graph.outgoing_relations).map List.length).sum + 1
  spreadLoop env now lambda_ beta fuel queue st

/-- Step 1 of `activate`: `context.keywords if context.keywords else
self.keyword_extractor.extract_keywords(context.message, max_keywords=20)`. -/
noncomputable def stage_keywords (env : ActivationEnv) (ctx : ActivationContext) :
    Except String (List String) :=
  if ctx.keywords = [] then env.extract_keywords ctx.message 20 else .ok ctx.keywords

/-- Step 2 of `activate`: candidates from the index minus
`context.already_activated`. -/
def stage_candidates (g : ActivationGraph) (ctx : ActivationContext)
    (keywords : List String) : List String :=
  (find_candidates g keywords).filter (fun i => i ∉ ctx.already_activated)

/-- Loop body of step 3 of `activate`: `mem = db.get_memory(mem_id);
if mem: memory_map[mem_id] = mem`. -/
def fetchStep (env : ActivationEnv) (acc : Dict Memory) (mem_id : String) :
    Except String (Dict Memory) := do
  match ← env.get_memory mem_id with
  | some mem => pure (dinsert acc mem_id mem)
  | none => pure acc

/-- Step 3 of `activate`: resolve candidate ids through `db.get_memory`,
dropping ids without a record. -/
noncomputable def fetch_memories (env : ActivationEnv) (ids : List String) :
    Except String (Dict Memory) :=
  ids.foldlM (fetchStep env) []

/-- Loop body of step 4 of `activate`: keyword relevance, temporal
`min(calculate_score(...)/2, 1)`, spreading `0`, source `direct`. -/
noncomputable def scoreStep (env : ActivationEnv) (now : Int)
    (lambda_ beta : Real) (keywords : List String)
    (acc : Dict ActivationScore × List String) (p : String × Memory) :
    Except String (Dict ActivationScore × List String) := do
  let r ← calculate_keyword_relevance env p.2 keywords
  let temporal_score :=
    min (calculate_score p.2.use_count p.2.last_used p.2.strength now lambda_ beta / 2) 1
  let sc := ActivationScore.calculate p.1 r.1 temporal_score 0 .direct r.2
  pure (dinsert acc.1 p.1 sc, acc.2 ++ [p.1])

/-- Step 4 of `activate`: direct scoring of every fetched memory. -/
noncomputable def score_direct (env : ActivationEnv) (now : Int)
    (lambda_ beta : Real) (keywords : List String) (memory_map : Dict Memory) :
    Except String (Dict ActivationScore × List String) :=
  memory_map.foldlM (scoreStep env now lambda_ beta keywords) ([], [])

/-- Step 6 of `activate`: `sorted(items, key=final_score, reverse=True)`
(stable descending mergesort). -/
noncomputable def rank_scores (scores : Dict ActivationScore) : Dict ActivationScore :=
  scores.mergeSort (fun a b =>
    @decide (b.2.final_score ≤ a.2.final_score) (Classical.propDecidable _))

def emptyActivationResult (tier : String) : ActivationResult :=
  { activated_memories := [], activation_scores := [], direct_matches := [],
    spread_matches := [], total_candidates := 0, fallback_tier := tier }

/-- Steps 6–7 of `activate`: rank by final score descending, filter by the
activation threshold, truncate to `max_memories` and assemble the
result. -/
noncomputable def buildResult (ctx : ActivationContext)
    (scores2 : Dict ActivationScore) (direct spread : List String)
    (total : Nat) (tier : String) : ActivationResult :=
  let ranked := rank_scores scores2
  let filtered := ranked.filter (fun p => ctx.activation_threshold ≤ p.2.final_score)
  let top_k := filtered.take ctx.max_memories
  { activated_memories := top_k.map Prod.fst,
    activation_scores := top_k,
    direct_matches := direct,
    spread_matches := spread,
    total_candidates := total,
    fallback_tier := tier }

/-- The `try` body of `ActivationService.activate`, with the inner
`try/except` around spreading inlined: a spreading exception keeps the
scores dict as mutated so far, empties the spread matches and downgrades
the tier to `keyword_only`. -/
noncomputable def activateCore (env : ActivationEnv) (now : Int)
    (lambda_ beta : Real) (ctx : ActivationContext) :
    Except String ActivationResult := do
  let keywords ← stage_keywords env ctx
  let candidate_ids := stage_candidates env.graph ctx keywords
  if candidate_ids = [] then
    pure (emptyActivationResult ("full"))
  else do
    let memory_map ← fetch_memories env candidate_ids
    let sd ← score_direct env now lambda_ beta keywords memory_map
    let direct_matches := sd.2
    let spreadOut :=
      if ctx.enable_spreading then
        match apply_spreading_activation env now lambda_ beta direct_matches
          sd.1 memory_map with
        | (st, none) => (st.activation_scores, st.spread_matches, "full")
        | (st, some _) => (st.activation_scores, [], "keyword_only")
      else (sd.1, [], "full")
    pure (buildResult ctx spreadOut.1 direct_matches spreadOut.2.1
      candidate_ids.length spreadOut.2.2)

/-- `ActivationService.activate`: the outer `except` returns the empty
result with tier `error` instead of propagating. -/
noncomputable def activate (env : ActivationEnv) (now : Int)
    (lambda_ beta : Real) (ctx : ActivationContext) : ActivationResult :=
  match activateCore env now lambda_ beta ctx with
  | .ok r => r
  | .error _ => emptyActivationResult ("error")

/-! ### Specification predicates for the spreading claims -/

/-- `1 + 2 + ⋯ + h`: the exponent the compounded per-hop multipliers
`0.5^1 · 0.5^2 · ⋯ · 0.5^h` accumulate by depth `h`. -/
def spreadHopExponent : Nat → Nat
  | 0 => 0
  | h + 1 => spreadHopExponent h + (h + 1)

/-- The source tag the claim associates with a BFS depth. -/
def tagOfDepth (d : Nat) : ActivationSource :=
  if d = 1 then .spread_1hop else if d = 2 then .spread_2hop else .spread_3hop

/-- What the code actually guarantees for a memory first reached by
spreading: it was reached at some depth `h ∈ {1,2,3}`, tagged
`tagOfDepth h`, with base relevance `0`, temporal score in `[0,1]`, a
spreading score equal to some originating direct match's final score times
`0.5 ^ (1 + 2 + ⋯ + h)`, and the combined final score formula. -/
def SpreadEntryProp (F : List Real) (sc : ActivationScore) : Prop :=
  ∃ h f, 1 ≤ h ∧ h ≤ 3 ∧ f ∈ F ∧ sc.source = tagOfDepth h ∧
    sc.spreading_score = f * (0.5 : Real) ^ spreadHopExponent h ∧
    sc.base_relevance = 0 ∧ 0 ≤ sc.temporal_score ∧ sc.temporal_score ≤ 1 ∧
    sc.final_score =
      min (0.5 * 0 + 0.3 * sc.temporal_score + 0.2 * sc.spreading_score) 1

/-- The source scores the direct matches feed into the spreading queue:
the final scores of the direct-match entries present in the scores dict. -/
noncomputable def directFinals (scores0 : Dict ActivationScore)
    (direct : List String) : List Real :=
  (direct.filterMap (fun id => dlookup scores0 id)).map ActivationScore.final_score

/-- Invariant of spreading queue entries: either a seed (hop 0 carrying a
direct match's final score) or a spread entry at hop `1..3` carrying an
originating final score compounded by `0.5^(1+⋯+hop)`. -/
def QEntryProp (F : List Real) (e : String × Nat × Real) : Prop :=
  (e.2.1 = 0 ∧ e.2.2 ∈ F) ∨
    (1 ≤ e.2.1 ∧ e.2.1 ≤ 3 ∧
      ∃ f ∈ F, e.2.2 = f * (0.5 : Real) ^ spreadHopExponent e.2.1)

/-- Invariant of the mutable spreading state relative to the initial
scores dict `base` and initial visited set `V0`: every scores entry is an
original one or a spread entry satisfying `SpreadEntryProp`; memory-map
strengths are nonnegative; `V0` stays visited; every spread match is
visited, outside `V0`, recorded once and holds a `SpreadEntryProp`
score. -/
def SpreadInv (F : List Real) (base : Dict ActivationScore) (V0 : List String)
    (st : SpreadState) : Prop :=
  (∀ p ∈ st.activation_scores, p ∈ base ∨ SpreadEntryProp F p.2) ∧
  (∀ p ∈ st.memory_map, 0 ≤ p.2.strength) ∧
  (∀ k ∈ V0, k ∈ st.visited) ∧
  (∀ id ∈ st.spread_matches, id ∈ st.visited) ∧
  (∀ id ∈ st.spread_matches,
    ∃ sc, dlookup st.activation_scores id = some sc ∧ SpreadEntryProp F sc) ∧
  st.spread_matches.Nodup ∧
  (∀ id ∈ st.spread_matches, id ∉ V0)

/-- The environment hypothesis the pydantic `Memory` model guarantees:
every record the database hands back has nonnegative strength
(`strength` is declared with `ge=0`). -/
def EnvStrengthNonneg (env : ActivationEnv) : Prop :=
  ∀ id m, env.get_memory id = Except.ok (some m) → 0 ≤ m.strength

/-- A well-formed activation score: every component lies in `[0,1]` and
the final score is the capped weighted combination of the components. -/
def ScoreWellFormed (sc : ActivationScore) : Prop :=
  0 ≤ sc.base_relevance ∧ sc.base_relevance ≤ 1 ∧
  0 ≤ sc.temporal_score ∧ sc.temporal_score ≤ 1 ∧
  0 ≤ sc.spreading_score ∧ sc.spreading_score ≤ 1 ∧
  sc.final_score =
    min (0.5 * sc.base_relevance + 0.3 * sc.temporal_score +
      0.2 * sc.spreading_score) 1

/-! ### Tool-level operation traces

The tool surface mutates storage through `save_memory`, `update_memory`,
`delete_memory`, the `create_relation` handler (which performs the
duplicate-triple check) and `delete_relation`; a trace of those calls is
what "at every point" ranges over for the relation-uniqueness claim. -/

inductive ApiOp
  | save (m : Memory)
  | update (id : String) (a : UpdateArgs)
  | deleteM (id : String)
  | createRelH (rid : String) (now : Int) (f t ty : String) (s : Real)
      (md : List (String × String))
  | deleteR (id : String)

def stepApi (st : StorageState) : ApiOp → StorageState
  | .save m => saveMemory st m
  | .update i a => (updateMemory st i a).2
  | .deleteM i => (deleteMemory st i).2
  | .createRelH rid now f t ty s md =>
    (create_relation_handler st rid now f t ty s md).2
  | .deleteR i => (deleteRelation st i).2

def runApi (ops : List ApiOp) : StorageState :=
  ops.foldl stepApi StorageState.init

/-! ### Concrete sample values used by the witnesses -/

def sampleMeta : MemoryMetadata :=
  { tags := ["x"], source := none, context := none, extra := [] }

def sampleMem : Memory :=
  { id := "a", content := "alpha note", meta := sampleMeta, created_at := 0,
    last_used := 0, use_count := 0, strength := 1, status := .active,
    promoted_at := none, promoted_to := none, embed := none, entities := [] }

def sampleMem2 : Memory :=
  { id := "b", content := "beta note",
    meta := { tags := [], source := none, context := none, extra := [] },
    created_at := 0, last_used := 0, use_count := 0, strength := 1,
    status := .active, promoted_at := none, promoted_to := none,
    embed := none, entities := [] }

def sampleRel : Relation :=
  { id := "r0", from_memory_id := "a", to_memory_id := "b",
    relation_type := "references", strength := 1, created_at := 0,
    metadata := [] }

def sampleState : StorageState :=
  { memFile := [JLine.record sampleMem, JLine.record sampleMem2],
    relFile := [JLine.record sampleRel],
    mems := [("a", sampleMem), ("b", sampleMem2)],
    rels := [("r0", sampleRel)],
    deletedMemIds := [], deletedRelIds := [] }

/-! ### Concrete activation fixtures used by witnesses and the
counterexample -/

def chainMemC : Memory :=
  { id := "c", content := "gamma note",
    meta := { tags := [], source := none, context := none, extra := [] },
    created_at := 0, last_used := 0, use_count := 0, strength := 1,
    status := .active, promoted_at := none, promoted_to := none,
    embed := none, entities := [] }

/-- A three-node relation chain `a → b → c`; keyword `x` indexes only
`a`. -/
def chainGraph : ActivationGraph :=
  { keyword_to_memories := [("x", ["a"])], entity_to_memories := [],
    tag_to_memories := [],
    outgoing_relations := [("a", ["b"]), ("b", ["c"])] }

def chainEnv : ActivationEnv :=
  { extract_keywords := fun _ _ => .ok [],
    get_memory := fun id =>
      if id = "a" then .ok (some sampleMem)
      else if id = "b" then .ok (some sampleMem2)
      else if id = "c" then .ok (some chainMemC)
      else .ok none,
    graph := chainGraph }

/-- The scores dict `activate` hands to spreading on the chain example:
`a` is a direct match with full keyword relevance and zero temporal
score, so its final score is `0.5`. -/
noncomputable def chainScores0 : Dict ActivationScore :=
  [("a", ActivationScore.calculate ("a") 1 0 0 .direct ["x"])]

def chainMm0 : Dict Memory := [("a", sampleMem)]

/-- Like the chain, but `b`'s record read fails: spreading raises. -/
def kbGraph : ActivationGraph :=
  { keyword_to_memories := [("x", ["a"])], entity_to_memories := [],
    tag_to_memories := [], outgoing_relations := [("a", ["b"])] }

def kbEnv : ActivationEnv :=
  { extract_keywords := fun _ _ => .ok [],
    get_memory := fun id =>
      if id = "a" then .ok (some sampleMem) else .error ("boom"),
    graph := kbGraph }

/-- The direct-scoring output on the `kbEnv` fixture (one direct match
`a`), extracted by projection so the fixture equations hold by
computation. -/
noncomputable def kbSd : Dict ActivationScore × List String :=
  match score_direct kbEnv 0 1 1 ["x"] [("a", sampleMem)] with
  | .ok sd => sd
  | .error _ => ([], [])

/-- The partially mutated spreading state at the moment `kbEnv`'s
`get_memory("b")` raises. -/
noncomputable def kbStF : SpreadState :=
  (apply_spreading_activation kbEnv 0 1 1 kbSd.2 kbSd.1 [("a", sampleMem)]).1

/-- An environment whose keyword extractor raises. -/
def emptyGraph : ActivationGraph :=
  { keyword_to_memories := [], entity_to_memories := [],
    tag_to_memories := [], outgoing_relations := [] }

def failEnv : ActivationEnv :=
  { extract_keywords := fun _ _ => .error ("extract failed"),
    get_memory := fun _ => .ok none,
    graph := emptyGraph }

def ctxSpread : ActivationContext :=
  { message := "set up x", keywords := ["x"], already_activated := [],
    max_memories := 10, activation_threshold := 0, enable_spreading := true }

def ctxEmptyKw : ActivationContext :=
  { message := "anything", keywords := [], already_activated := [],
    max_memories := 5, activation_threshold := 0, enable_spreading := true }

/-! ## Lemmas about the dict embedding -/

theorem dlookup_dinsert_self {β : Type} (d : Dict β) (k : String) (v : β) :
    dlookup (dinsert d k v) k = some v := by
  induction d with
  | nil => simp [dinsert, dlookup]
  | cons p rest ih =>
    by_cases h : p.1 = k
    · simp [dinsert, h, dlookup]
    · simp [dinsert, h, dlookup, ih]

theorem dlookup_dinsert_ne {β : Type} (d : Dict β) (k k2 : String) (v : β)
    (h : k2 ≠ k) : dlookup (dinsert d k v) k2 = dlookup d k2 := by
  have h2 : ¬(k = k2) := fun hh => h hh.symm
  induction d with
  | nil => simp [dinsert, dlookup, h2]
  | cons p rest ih =>
    by_cases hp : p.1 = k
    · simp only [dinsert, if_pos hp, dlookup]
      rw [if_neg h2, if_neg (fun hh : p.1 = k2 => h2 (hp ▸ hh))]
    · simp only [dinsert, if_neg hp, dlookup]
      by_cases hp2 : p.1 = k2
      · rw [if_pos hp2, if_pos hp2]
      · rw [if_neg hp2, if_neg hp2, ih]

theorem mem_dinsert {β : Type} (d : Dict β) (k : String) (v : β) (p : String × β)
    (hp : p ∈ dinsert d k v) : p = (k, v) ∨ p ∈ d := by
  induction d with
  | nil => simpa [dinsert] using hp
  | cons q rest ih =>
    by_cases h : q.1 = k
    · simp only [dinsert, if_pos h, List.mem_cons] at hp
      rcases hp with hp | hp
      · exact Or.inl hp
      · exact Or.inr (List.mem_cons_of_mem _ hp)
    · simp only [dinsert, if_neg h, List.mem_cons] at hp
      rcases hp with hp | hp
      · exact Or.inr (hp ▸ List.mem_cons_self _ _)
      · rcases ih hp with h2 | h2
        · exact Or.inl h2
        · exact Or.inr (List.mem_cons_of_mem _ h2)

theorem dinsert_of_not_mem {β : Type} (d : Dict β) (k : String) (v : β)
    (h : k ∉ dkeys d) : dinsert d k v = d ++ [(k, v)] := by
  induction d with
  | nil => simp [dinsert]
  | cons p rest ih =>
    simp only [dkeys, List.map_cons, List.mem_cons] at h
    push_neg at h
    simp only [dinsert, if_neg (fun hh : p.1 = k => h.1 hh.symm)]
    rw [ih h.2]
    simp

theorem dkeys_dinsert_of_mem {β : Type} (d : Dict β) (k : String) (v : β)
    (h : k ∈ dkeys d) : dkeys (dinsert d k v) = dkeys d := by
  induction d with
  | nil => simp [dkeys] at h
  | cons p rest ih =>
    by_cases hp : p.1 = k
    · simp [dinsert, hp, dkeys]
    · simp only [dkeys, List.map_cons, List.mem_cons] at h
      rcases h with h | h
      · exact absurd h.symm hp
      · simp only [dinsert, if_neg hp, dkeys, List.map_cons]
        congr 1
        exact ih h

theorem nodup_dkeys_dinsert {β : Type} (d : Dict β) (k : String) (v : β)
    (h : (dkeys d).Nodup) : (dkeys (dinsert d k v)).Nodup := by
  by_cases hk : k ∈ dkeys d
  · rw [dkeys_dinsert_of_mem d k v hk]; exact h
  · rw [dinsert_of_not_mem d k v hk]
    simpa [dkeys] using (List.nodup_append.mpr ⟨h, by simp, by simpa [dkeys] using hk⟩)

theorem derase_sublist {β : Type} (d : Dict β) (k : String) :
    (derase d k).Sublist d := by
  induction d with
  | nil => simp [derase]
  | cons p rest ih =>
    by_cases h : p.1 = k
    · rw [derase, if_pos h]
      exact List.sublist_cons_self p rest
    · rw [derase, if_neg h]
      exact List.Sublist.cons₂ p ih

theorem nodup_dkeys_derase {β : Type} (d : Dict β) (k : String)
    (h : (dkeys d).Nodup) : (dkeys (derase d k)).Nodup :=
  List.Nodup.sublist (List.Sublist.map Prod.fst (derase_sublist d k)) h

theorem mem_of_mem_derase {β : Type} (d : Dict β) (k : String) (p : String × β)
    (hp : p ∈ derase d k) : p ∈ d :=
  (derase_sublist d k).mem hp

theorem dlookup_mem {β : Type} (d : Dict β) (k : String) (v : β)
    (h : dlookup d k = some v) : (k, v) ∈ d := by
  induction d with
  | nil => simp [dlookup] at h
  | cons p rest ih =>
    cases p with
    | mk p1 p2 =>
      by_cases hp : p1 = k
      · subst hp
        have h2 : p2 = v := by simpa [dlookup] using h
        subst h2
        exact List.mem_cons_self _ _
      · simp only [dlookup, if_neg hp] at h
        exact List.mem_cons_of_mem _ (ih h)

theorem dlookup_eq_none_iff {β : Type} (d : Dict β) (k : String) :
    dlookup d k = none ↔ k ∉ dkeys d := by
  induction d with
  | nil => simp [dlookup, dkeys]
  | cons p rest ih =>
    by_cases hp : p.1 = k
    · simp [dlookup, hp, dkeys]
    · have hp2 : ¬(k = p.1) := fun hh => hp hh.symm
      simp [dlookup, hp, dkeys, ih, hp2]

theorem wellKeyed_dinsert {β : Type} (idOf : β → String) (d : Dict β)
    (k : String) (v : β) (hv : idOf v = k) (h : WellKeyed idOf d) :
    WellKeyed idOf (dinsert d k v) := by
  intro p hp
  rcases mem_dinsert d k v p hp with h2 | h2
  · rw [h2]; exact hv
  · exact h p h2

theorem wellKeyed_derase {β : Type} (idOf : β → String) (d : Dict β)
    (k : String) (h : WellKeyed idOf d) : WellKeyed idOf (derase d k) :=
  fun p hp => h p (mem_of_mem_derase d k p hp)

theorem mem_dvalues_dinsert {β : Type} (d : Dict β) (k : String) (v w : β)
    (hw : w ∈ dvalues (dinsert d k v)) : w = v ∨ w ∈ dvalues d := by
  simp only [dvalues, List.mem_map] at hw
  rcases hw with ⟨p, hp, hpw⟩
  rcases mem_dinsert d k v p hp with h | h
  · left; rw [← hpw, h]
  · right; exact List.mem_map.mpr ⟨p, h, hpw⟩

theorem mem_dvalues_derase {β : Type} (d : Dict β) (k : String) (w : β)
    (hw : w ∈ dvalues (derase d k)) : w ∈ dvalues d := by
  simp only [dvalues, List.mem_map] at hw ⊢
  rcases hw with ⟨p, hp, hpw⟩
  exact ⟨p, mem_of_mem_derase d k p hp, hpw⟩

/-! ## Lemmas about the JSONL load -/

theorem loadLines_records {β : Type} (idOf : β → String) :
    ∀ (d acc : Dict β), WellKeyed idOf d → (dkeys d).Nodup →
      (∀ k ∈ dkeys d, k ∉ dkeys acc) →
      loadLines idOf (d.map (fun p => JLine.record p.2)) acc = acc ++ d := by
  intro d
  induction d with
  | nil => intro acc _ _ _; simp [loadLines]
  | cons p rest ih =>
    intro acc hwk hnd hdisj
    have hid : idOf p.2 = p.1 := hwk p (List.mem_cons_self _ _)
    have hp1 : p.1 ∉ dkeys acc := hdisj p.1 (by simp [dkeys])
    have hnd' : p.1 ∉ List.map Prod.fst rest ∧ (List.map Prod.fst rest).Nodup := by
      have h0 := hnd
      simp only [dkeys, List.map_cons, List.nodup_cons] at h0
      exact h0
    simp only [List.map_cons, loadLines, hid]
    rw [dinsert_of_not_mem acc p.1 p.2 hp1]
    have hwk2 : WellKeyed idOf rest := fun q hq => hwk q (List.mem_cons_of_mem _ hq)
    have hnd2 : (dkeys rest).Nodup := hnd'.2
    have hne : p.1 ∉ dkeys rest := hnd'.1
    have hdisj2 : ∀ k ∈ dkeys rest, k ∉ dkeys (acc ++ [(p.1, p.2)]) := by
      intro k hk hmem
      simp only [dkeys, List.map_append, List.mem_append, List.map_cons,
        List.map_nil, List.mem_singleton] at hmem
      rcases hmem with hmem | hmem
      · refine hdisj k ?_ hmem
        simp only [dkeys, List.map_cons, List.mem_cons]
        exact Or.inr hk
      · exact hne (hmem ▸ hk)
    have hrec := ih (acc ++ [(p.1, p.2)]) hwk2 hnd2 hdisj2
    rw [hrec, List.append_assoc]
    simp

/-! ## Storage invariant is maintained by every operation -/

theorem applyUpdate_eq (m : Memory) (a : UpdateArgs) :
    applyUpdate m a =
      { m with
        last_used := a.last_used.getD m.last_used,
        use_count := a.use_count.getD m.use_count,
        strength := a.strength.getD m.strength,
        status := a.status.getD m.status,
        promoted_at := match a.promoted_at with
          | some v => some v
          | none => m.promoted_at,
        promoted_to := match a.promoted_to with
          | some v => some v
          | none => m.promoted_to } := by
  unfold applyUpdate
  cases a.last_used <;> cases a.use_count <;> cases a.strength <;>
    cases a.status <;> cases a.promoted_at <;> cases a.promoted_to <;> rfl

theorem applyUpdate_id (m : Memory) (a : UpdateArgs) :
    (applyUpdate m a).id = m.id := by
  rw [applyUpdate_eq]

theorem storageInv_step (st : StorageState) (op : StorageOp)
    (h : StorageInv st) : StorageInv (stepOp st op) := by
  obtain ⟨hm, hr, hwm, hwr⟩ := h
  cases op with
  | saveMem m =>
    exact ⟨nodup_dkeys_dinsert _ _ _ hm, hr,
      wellKeyed_dinsert _ _ _ _ rfl hwm, hwr⟩
  | updateMem i a =>
    simp only [stepOp, updateMemory]
    cases hl : dlookup st.mems i with
    | none => exact ⟨hm, hr, hwm, hwr⟩
    | some m =>
      have hmi : m.id = i := hwm (i, m) (dlookup_mem _ _ _ hl)
      refine ⟨nodup_dkeys_dinsert _ _ _ hm, hr,
        wellKeyed_dinsert _ _ _ _ ?_ hwm, hwr⟩
      rw [applyUpdate_id, hmi]
  | deleteMem i =>
    simp only [stepOp, deleteMemory]
    by_cases hl : (dlookup st.mems i).isSome
    · simp only [if_pos hl]
      exact ⟨nodup_dkeys_derase _ _ hm, hr, wellKeyed_derase _ _ _ hwm, hwr⟩
    · simp only [if_neg hl]
      exact ⟨hm, hr, hwm, hwr⟩
  | createRel r =>
    exact ⟨hm, nodup_dkeys_dinsert _ _ _ hr, hwm,
      wellKeyed_dinsert _ _ _ _ rfl hwr⟩
  | deleteRel i =>
    simp only [stepOp, deleteRelation]
    by_cases hl : (dlookup st.rels i).isSome
    · simp only [if_pos hl]
      exact ⟨hm, nodup_dkeys_derase _ _ hr, hwm, wellKeyed_derase _ _ _ hwr⟩
    · simp only [if_neg hl]
      exact ⟨hm, hr, hwm, hwr⟩

theorem storageInv_foldl (ops : List StorageOp) :
    ∀ st : StorageState, StorageInv st → StorageInv (ops.foldl stepOp st) := by
  induction ops with
  | nil => intro st h; exact h
  | cons op rest ih =>
    intro st h
    exact ih (stepOp st op) (storageInv_step st op h)

theorem storageInv_init : StorageInv StorageState.init := by
  refine ⟨?_, ?_, ?_, ?_⟩ <;> simp [StorageState.init, dkeys, WellKeyed]

theorem storageInv_runOps (ops : List StorageOp) : StorageInv (runOps ops) :=
  storageInv_foldl ops StorageState.init storageInv_init

/-! ## Claim C1 — decay score shape and nonnegativity -/

/-- C1: for `calculate_score(use_count, last_used, strength, now, λ, β)`
with `β ≥ 0`, `λ > 0`, `strength ≥ 0`: a zero `use_count` yields `0`
regardless of elapsed time; a positive `use_count` yields
`use_count^β · exp(−λ·Δt) · strength` with `Δt = max(0, now − last_used)`;
and the result is always nonnegative. -/
theorem claim_C1 (use_count : Nat) (last_used : Int) (strength : Real)
    (now : Int) (lambda_ beta : Real)
    (hbeta : 0 ≤ beta) (hlam : 0 < lambda_) (hs : 0 ≤ strength) :
    (use_count = 0 → calculate_score use_count last_used strength now lambda_ beta = 0) ∧
    (0 < use_count →
      calculate_score use_count last_used strength now lambda_ beta =
        (use_count : Real) ^ beta *
          Real.exp (-lambda_ * ((max 0 (now - last_used) : Int) : Real)) * strength) ∧
    0 ≤ calculate_score use_count last_used strength now lambda_ beta := by
  refine ⟨?_, ?_, ?_⟩
  · intro h
    subst h
    simp [calculate_score]
  · intro h
    simp [calculate_score, h]
  · unfold calculate_score
    by_cases h : 0 < use_count
    · simp only [if_pos h]
      have h1 : (0:Real) ≤ (use_count : Real) ^ beta :=
        Real.rpow_nonneg (by positivity) _
      have h2 : (0:Real) ≤ Real.exp (-lambda_ * ((max 0 (now - last_used) : Int) : Real)) :=
        (Real.exp_pos _).le
      exact mul_nonneg (mul_nonneg h1 h2) hs
    · simp [if_neg h]

/-- C1 witness: the theorem applied at
`use_count = 1, last_used = 0, strength = 1, now = 5, λ = 1, β = 1`. -/
theorem claim_C1_witness :
    ((1:Nat) = 0 → calculate_score 1 0 1 5 1 1 = 0) ∧
    (0 < (1:Nat) →
      calculate_score 1 0 1 5 1 1 =
        ((1:Nat) : Real) ^ (1:Real) *
          Real.exp (-(1:Real) * ((max 0 ((5:Int) - 0) : Int) : Real)) * 1) ∧
    0 ≤ calculate_score 1 0 1 5 1 1 :=
  claim_C1 1 0 1 5 1 1 (by norm_num) (by norm_num) (by norm_num)

/-! ## Claim C7 — half-life identities -/

/-- C7: `calculate_halflife ∘ calculate_decay_lambda` is the identity on
half-lives in `[0.1, 365]` days (exactly, in real arithmetic, hence within
the claimed 1% tolerance), and with `λ = calculate_decay_lambda h` and a
positive `use_count` the score one half-life after `last_used` is exactly
half the score at `last_used` (hence within the claimed 1e-9 tolerance);
`d` is the elapsed half-life expressed in integer seconds. -/
theorem claim_C7 (halflife_days : Real) (use_count : Nat) (last_used : Int)
    (strength beta : Real) (d : Int)
    (h1 : 0.1 ≤ halflife_days) (h2 : halflife_days ≤ 365)
    (huc : 0 < use_count) (hd : (d : Real) = halflife_days * 86400) :
    calculate_halflife (calculate_decay_lambda halflife_days) = halflife_days ∧
    calculate_score use_count last_used strength (last_used + d)
        (calculate_decay_lambda halflife_days) beta =
      0.5 * calculate_score use_count last_used strength last_used
        (calculate_decay_lambda halflife_days) beta := by
  have hpos : (0:Real) < halflife_days := lt_of_lt_of_le (by norm_num) h1
  have hlog : Real.log 2 ≠ 0 := ne_of_gt (Real.log_pos one_lt_two)
  have hh : halflife_days * 86400 ≠ 0 := by positivity
  constructor
  · unfold calculate_halflife calculate_decay_lambda
    field_simp
  · have hdpos : (0:Real) < (d:Real) := by rw [hd]; positivity
    have hdint : (0:Int) < d := by exact_mod_cast hdpos
    have hsub : last_used + d - last_used = d := by ring
    have hmax1 : max 0 (last_used + d - last_used) = d := by
      rw [hsub]
      exact max_eq_right hdint.le
    have hmax0 : max 0 (last_used - last_used) = (0:Int) := by
      simp
    have hexp : Real.exp (-calculate_decay_lambda halflife_days * ((d:Int) : Real)) =
        2⁻¹ := by
      have harg : calculate_decay_lambda halflife_days * (d:Real) = Real.log 2 := by
        unfold calculate_decay_lambda
        rw [hd]
        field_simp
      rw [neg_mul, Real.exp_neg, harg, Real.exp_log two_pos]
    unfold calculate_score
    simp only [hmax1, hmax0, if_pos huc]
    rw [hexp]
    norm_num
    ring

/-- C7 witness: the theorem applied at a half-life of 3 days
(`d = 259200` seconds), `use_count = 1`, `last_used = 0`,
`strength = 1`, `β = 1`. -/
theorem claim_C7_witness :
    calculate_halflife (calculate_decay_lambda 3) = 3 ∧
    calculate_score 1 0 1 (0 + 259200) (calculate_decay_lambda 3) 1 =
      0.5 * calculate_score 1 0 1 0 (calculate_decay_lambda 3) 1 :=
  claim_C7 3 1 0 1 1 259200 (by norm_num) (by norm_num) (by norm_num)
    (by norm_num)

/-! ## Claim C10 — post-save urgent check on missing ids -/

/-- C10: with `urgent_threshold ≤ 1`, `post_save_check` returns `None`
for every id missing from storage (a missing memory scores `1.0`, never
below the threshold), and an action descriptor is returned only for a
present memory whose score is strictly below the threshold, with action
`would_flag_urgent` in dry-run and `flagged_urgent` live. -/
theorem claim_C10 (dry_run : Bool) (urgent_threshold : Real)
    (mems : Dict Memory) (memory_id : String) (now : Int) (lambda_ beta : Real)
    (hθ : urgent_threshold ≤ 1) :
    (dlookup mems memory_id = none →
      post_save_check dry_run urgent_threshold mems memory_id now lambda_ beta
        = none) ∧
    (∀ act, post_save_check dry_run urgent_threshold mems memory_id now
        lambda_ beta = some act →
      ∃ m, dlookup mems memory_id = some m ∧
        calculate_score m.use_count m.last_used m.strength now lambda_ beta
          < urgent_threshold ∧
        act.memory_id = memory_id ∧
        act.action = (if dry_run then "would_flag_urgent" else "flagged_urgent")) := by
  constructor
  · intro h
    unfold post_save_check scheduler_calculate_score
    rw [h]
    have h1 : urgent_threshold ≤ (1.0:Real) := by
      norm_num
      exact hθ
    simp [h1]
  · intro act h
    unfold post_save_check scheduler_calculate_score at h
    cases hl : dlookup mems memory_id with
    | none =>
      rw [hl] at h
      have h1 : urgent_threshold ≤ (1.0:Real) := by
        norm_num
        exact hθ
      simp [h1] at h
    | some m =>
      rw [hl] at h
      by_cases hscore : urgent_threshold ≤
          calculate_score m.use_count m.last_used m.strength now lambda_ beta
      · simp [hscore] at h
      · simp only [if_neg hscore, Option.some.injEq] at h
        refine ⟨m, rfl, lt_of_not_le hscore, ?_, ?_⟩
        · rw [← h]
        · rw [← h]

/-- C10 witness: the theorem applied with threshold `1/10` to an empty
store (missing id returns `None`) and to a store holding a decayed memory
with `use_count = 0` (score `0`, an urgent descriptor is produced). -/
theorem claim_C10_witness :
    (dlookup ([] : Dict Memory) ("a") = none →
      post_save_check true (1/10) [] ("a") 0 1 1 = none) ∧
    (∀ act, post_save_check true (1/10) [] ("a") 0 1 1 = some act →
      ∃ m, dlookup ([] : Dict Memory) ("a") = some m ∧
        calculate_score m.use_count m.last_used m.strength 0 1 1 < 1/10 ∧
        act.memory_id = "a" ∧
        act.action = (if true then "would_flag_urgent" else "flagged_urgent")) :=
  claim_C10 true (1/10) [] ("a") 0 1 1 (by norm_num)

/-! ## Claim C5 — compaction convergence -/

/-- C5: after any finite sequence of save / update / delete operations on
memories and relations followed by `compact()`, each file holds no
tombstone and exactly one line per live record (its line ids are exactly
the keys of the live map, without duplicates), a fresh `connect()` replay
of the compacted files rebuilds exactly the in-memory maps from before
compaction, and the tombstone bookkeeping sets are cleared. -/
theorem claim_C5 (ops : List StorageOp) :
    (∀ l ∈ (compact (runOps ops)).memFile, l.isTomb = false) ∧
    (compact (runOps ops)).memFile.map (JLine.lineId Memory.id)
      = dkeys (runOps ops).mems ∧
    ((compact (runOps ops)).memFile.map (JLine.lineId Memory.id)).Nodup ∧
    loadLines Memory.id (compact (runOps ops)).memFile [] = (runOps ops).mems ∧
    (∀ l ∈ (compact (runOps ops)).relFile, l.isTomb = false) ∧
    (compact (runOps ops)).relFile.map (JLine.lineId Relation.id)
      = dkeys (runOps ops).rels ∧
    ((compact (runOps ops)).relFile.map (JLine.lineId Relation.id)).Nodup ∧
    loadLines Relation.id (compact (runOps ops)).relFile [] = (runOps ops).rels ∧
    (compact (runOps ops)).deletedMemIds = [] ∧
    (compact (runOps ops)).deletedRelIds = [] := by
  obtain ⟨hm, hr, hwm, hwr⟩ := storageInv_runOps ops
  have hmap : (compact (runOps ops)).memFile.map (JLine.lineId Memory.id)
      = dkeys (runOps ops).mems := by
    simp only [compact, List.map_map]
    exact List.map_congr_left (fun p hp => hwm p hp)
  have hrmap : (compact (runOps ops)).relFile.map (JLine.lineId Relation.id)
      = dkeys (runOps ops).rels := by
    simp only [compact, List.map_map]
    exact List.map_congr_left (fun p hp => hwr p hp)
  refine ⟨?_, hmap, ?_, ?_, ?_, hrmap, ?_, ?_, rfl, rfl⟩
  · intro l hl
    simp only [compact, List.mem_map] at hl
    obtain ⟨p, _, hp⟩ := hl
    rw [← hp]
    rfl
  · rw [hmap]; exact hm
  · have := loadLines_records Memory.id (runOps ops).mems [] hwm hm
      (by intro k _ hk; simp [dkeys] at hk)
    simpa [compact] using this
  · intro l hl
    simp only [compact, List.mem_map] at hl
    obtain ⟨p, _, hp⟩ := hl
    rw [← hp]
    rfl
  · rw [hrmap]; exact hr
  · have := loadLines_records Relation.id (runOps ops).rels [] hwr hr
      (by intro k _ hk; simp [dkeys] at hk)
    simpa [compact] using this

/-! ## Claim C9 — update_memory frame conditions -/

/-- C9: `update_memory` changes only the updatable fields that are passed
as non-`None` (each such field takes exactly the passed value, each
omitted one keeps its old value); `id`, `content`, `meta`, `created_at`,
`entities` and `embed` are never touched; no field can be reset to `None`
through the update; and for a missing id it returns `False`, appends no
line and leaves the state unchanged. -/
theorem claim_C9 (st : StorageState) (memory_id : String) (a : UpdateArgs) :
    (dlookup st.mems memory_id = none →
      updateMemory st memory_id a = (false, st)) ∧
    (∀ m, dlookup st.mems memory_id = some m →
      (updateMemory st memory_id a).1 = true ∧
      (updateMemory st memory_id a).2.mems
        = dinsert st.mems memory_id (applyUpdate m a) ∧
      (updateMemory st memory_id a).2.memFile
        = st.memFile ++ [JLine.record (applyUpdate m a)] ∧
      (updateMemory st memory_id a).2.relFile = st.relFile ∧
      (applyUpdate m a).id = m.id ∧
      (applyUpdate m a).content = m.content ∧
      (applyUpdate m a).meta = m.meta ∧
      (applyUpdate m a).created_at = m.created_at ∧
      (applyUpdate m a).entities = m.entities ∧
      (applyUpdate m a).embed = m.embed ∧
      (applyUpdate m a).last_used = a.last_used.getD m.last_used ∧
      (applyUpdate m a).use_count = a.use_count.getD m.use_count ∧
      (applyUpdate m a).strength = a.strength.getD m.strength ∧
      (applyUpdate m a).status = a.status.getD m.status ∧
      ((applyUpdate m a).promoted_at
        = match a.promoted_at with | some v => some v | none => m.promoted_at) ∧
      ((applyUpdate m a).promoted_to
        = match a.promoted_to with | some v => some v | none => m.promoted_to) ∧
      ((applyUpdate m a).promoted_at = none → m.promoted_at = none) ∧
      ((applyUpdate m a).promoted_to = none → m.promoted_to = none)) := by
  constructor
  · intro h
    simp [updateMemory, h]
  · intro m h
    have hup := applyUpdate_eq m a
    refine ⟨?_, ?_, ?_, ?_, ?_, ?_, ?_, ?_, ?_, ?_, ?_, ?_, ?_, ?_, ?_, ?_, ?_, ?_⟩ <;>
      simp only [updateMemory, h, hup]
    · cases a.promoted_at with
      | none => intro h2; exact h2
      | some v => intro h2; cases h2
    · cases a.promoted_to with
      | none => intro h2; exact h2
      | some v => intro h2; cases h2

/-- C9 witness: the theorem applied to the sample store, updating
`use_count` and `strength` of memory `a` and leaving every other field
alone. -/
theorem claim_C9_witness :
    (updateMemory sampleState ("a")
        { use_count := some 7, strength := some 2 }).1 = true ∧
    (updateMemory sampleState ("a")
        { use_count := some 7, strength := some 2 }).2.mems
      = dinsert sampleState.mems ("a")
          (applyUpdate sampleMem { use_count := some 7, strength := some 2 }) ∧
    (updateMemory sampleState ("a")
        { use_count := some 7, strength := some 2 }).2.memFile
      = sampleState.memFile ++
          [JLine.record (applyUpdate sampleMem
            { use_count := some 7, strength := some 2 })] ∧
    (updateMemory sampleState ("a")
        { use_count := some 7, strength := some 2 }).2.relFile
      = sampleState.relFile ∧
    (applyUpdate sampleMem { use_count := some 7, strength := some 2 }).id
      = sampleMem.id ∧
    (applyUpdate sampleMem { use_count := some 7, strength := some 2 }).content
      = sampleMem.content ∧
    (applyUpdate sampleMem { use_count := some 7, strength := some 2 }).meta
      = sampleMem.meta ∧
    (applyUpdate sampleMem { use_count := some 7, strength := some 2 }).created_at
      = sampleMem.created_at ∧
    (applyUpdate sampleMem { use_count := some 7, strength := some 2 }).entities
      = sampleMem.entities ∧
    (applyUpdate sampleMem { use_count := some 7, strength := some 2 }).embed
      = sampleMem.embed ∧
    (applyUpdate sampleMem { use_count := some 7, strength := some 2 }).last_used
      = Option.getD none sampleMem.last_used ∧
    (applyUpdate sampleMem { use_count := some 7, strength := some 2 }).use_count
      = Option.getD (some 7) sampleMem.use_count ∧
    (applyUpdate sampleMem { use_count := some 7, strength := some 2 }).strength
      = Option.getD (some 2) sampleMem.strength ∧
    (applyUpdate sampleMem { use_count := some 7, strength := some 2 }).status
      = Option.getD none sampleMem.status ∧
    ((applyUpdate sampleMem { use_count := some 7, strength := some 2 }).promoted_at
      = match (none : Option Int) with
        | some v => some v
        | none => sampleMem.promoted_at) ∧
    ((applyUpdate sampleMem { use_count := some 7, strength := some 2 }).promoted_to
      = match (none : Option String) with
        | some v => some v
        | none => sampleMem.promoted_to) ∧
    ((applyUpdate sampleMem { use_count := some 7, strength := some 2 }).promoted_at
      = none → sampleMem.promoted_at = none) ∧
    ((applyUpdate sampleMem { use_count := some 7, strength := some 2 }).promoted_to
      = none → sampleMem.promoted_to = none) :=
  (claim_C9 sampleState ("a") { use_count := some 7, strength := some 2 }).2
    sampleMem (by simp [sampleState, dlookup])

/-! ## Claim C8 — touch_memory semantics -/

/-- C8: for an existing memory id, `touch_memory_handler` reports success
with `use_count` incremented by exactly one and the new strength, stores
the record with `last_used = now`, the incremented `use_count` and
`strength = min(2.0, strength + 0.1)` when `boost_strength` else the old
strength, and leaves every other stored memory unchanged; a missing id is
a failure that leaves the state unchanged. -/
theorem claim_C8 (st : StorageState) (memory_id : String)
    (boost_strength : Bool) (now : Int) (lambda_ beta : Real) :
    (dlookup st.mems memory_id = none →
      touch_memory_handler st memory_id boost_strength now lambda_ beta
        = ({ success := false, use_count := none, strength := none,
             old_score := none, new_score := none }, st)) ∧
    (∀ m, dlookup st.mems memory_id = some m →
      (touch_memory_handler st memory_id boost_strength now lambda_ beta).1.success
          = true ∧
      (touch_memory_handler st memory_id boost_strength now lambda_ beta).1.use_count
          = some (m.use_count + 1) ∧
      (touch_memory_handler st memory_id boost_strength now lambda_ beta).1.strength
          = some (if boost_strength then min 2 (m.strength + 0.1) else m.strength) ∧
      dlookup (touch_memory_handler st memory_id boost_strength now
          lambda_ beta).2.mems memory_id
        = some { m with last_used := now, use_count := m.use_count + 1,
                        strength := (if boost_strength then
                          min 2 (m.strength + 0.1) else m.strength) } ∧
      (∀ k, k ≠ memory_id →
        dlookup (touch_memory_handler st memory_id boost_strength now
          lambda_ beta).2.mems k = dlookup st.mems k)) := by
  constructor
  · intro h
    simp [touch_memory_handler, h]
  · intro m h
    have hmem : (touch_memory_handler st memory_id boost_strength now
        lambda_ beta).2.mems
        = dinsert st.mems memory_id
            { m with last_used := now, use_count := m.use_count + 1,
                     strength := (if boost_strength then
                       min 2 (m.strength + 0.1) else m.strength) } := by
      simp only [touch_memory_handler, h, updateMemory, applyUpdate_eq,
        Option.getD_some, Option.getD_none]
    refine ⟨?_, ?_, ?_, ?_, ?_⟩
    · simp [touch_memory_handler, h]
    · simp [touch_memory_handler, h]
    · simp [touch_memory_handler, h]
    · rw [hmem]
      exact dlookup_dinsert_self _ _ _
    · intro k hk
      rw [hmem]
      exact dlookup_dinsert_ne _ _ _ _ hk

/-- C8 witness: the theorem applied to the sample store, touching memory
`a` with `boost_strength = true` at time `5`. -/
theorem claim_C8_witness :
    (touch_memory_handler sampleState ("a") true 5 1 1).1.success = true ∧
    (touch_memory_handler sampleState ("a") true 5 1 1).1.use_count
        = some (sampleMem.use_count + 1) ∧
    (touch_memory_handler sampleState ("a") true 5 1 1).1.strength
        = some (if true then min 2 (sampleMem.strength + 0.1)
            else sampleMem.strength) ∧
    dlookup (touch_memory_handler sampleState ("a") true 5 1 1).2.mems ("a")
      = some { sampleMem with last_used := 5,
                              use_count := sampleMem.use_count + 1,
                              strength := (if true then
                                min 2 (sampleMem.strength + 0.1)
                                else sampleMem.strength) } ∧
    (∀ k, k ≠ "a" →
      dlookup (touch_memory_handler sampleState ("a") true 5 1 1).2.mems k
        = dlookup sampleState.mems k) :=
  (claim_C8 sampleState ("a") true 5 1 1).2 sampleMem
    (by simp [sampleState, dlookup])

/-! ## Lemmas about get_relations and the duplicate-triple check -/

theorem optTruthy_of_ne (s : String) (h : ¬(s = "")) :
    optTruthy (some s) = true := by
  simp [optTruthy, h]

theorem mem_get_relations_of_triple (rels : Dict Relation) (f t ty : String)
    (er : Relation) (her : er ∈ dvalues rels) (hf : er.from_memory_id = f)
    (ht : er.to_memory_id = t) (hty : er.relation_type = ty) :
    er ∈ get_relations rels (some f) (some t) (some ty) := by
  unfold get_relations
  by_cases h1 : optTruthy (some f) <;> by_cases h2 : optTruthy (some t) <;>
    by_cases h3 : optTruthy (some ty) <;>
      simp [h1, h2, h3, List.mem_filter, her, hf, ht, hty]

theorem get_relations_sound (rels : Dict Relation) (f t ty : String)
    (r : Relation) (hf : ¬(f = "")) (ht : ¬(t = "")) (hty : ¬(ty = ""))
    (hr : r ∈ get_relations rels (some f) (some t) (some ty)) :
    r ∈ dvalues rels ∧ r.from_memory_id = f ∧ r.to_memory_id = t ∧
      r.relation_type = ty := by
  unfold get_relations at hr
  simp only [optTruthy_of_ne _ hf, optTruthy_of_ne _ ht, optTruthy_of_ne _ hty,
    if_true, Option.getD_some, List.mem_filter, decide_eq_true_eq] at hr
  exact ⟨hr.1.1.1, hr.1.1.2, hr.1.2, hr.2⟩

theorem relUnique_createHandler (st : StorageState) (rid : String) (now : Int)
    (from_id to_id relation_type : String) (strength : Real)
    (md : List (String × String)) (hu : RelTripleUnique st.rels) :
    RelTripleUnique (create_relation_handler st rid now from_id to_id
      relation_type strength md).2.rels := by
  cases hfm : dlookup st.mems from_id with
  | none => simpa only [create_relation_handler, hfm] using hu
  | some mf =>
    cases htm : dlookup st.mems to_id with
    | none => simpa only [create_relation_handler, hfm, htm] using hu
    | some mt =>
      cases hgr : get_relations st.rels (some from_id) (some to_id)
          (some relation_type) with
      | cons e tail => simpa only [create_relation_handler, hfm, htm, hgr] using hu
      | nil =>
        simp only [create_relation_handler, hfm, htm, hgr, createRelation]
        intro r1 h1 r2 h2 hf ht hty
        rcases mem_dvalues_dinsert _ _ _ _ h1 with h1 | h1 <;>
          rcases mem_dvalues_dinsert _ _ _ _ h2 with h2 | h2
        · rw [h1, h2]
        · exfalso
          have hin := mem_get_relations_of_triple st.rels from_id to_id
            relation_type r2 h2 (by rw [← hf, h1]) (by rw [← ht, h1])
            (by rw [← hty, h1])
          rw [hgr] at hin
          simp at hin
        · exfalso
          have hin := mem_get_relations_of_triple st.rels from_id to_id
            relation_type r1 h1 (by rw [hf, h2]) (by rw [ht, h2])
            (by rw [hty, h2])
          rw [hgr] at hin
          simp at hin
        · exact hu r1 h1 r2 h2 hf ht hty

theorem relUnique_stepApi (st : StorageState) (op : ApiOp)
    (hu : RelTripleUnique st.rels) : RelTripleUnique (stepApi st op).rels := by
  cases op with
  | save m => exact hu
  | update i a =>
    have : (stepApi st (.update i a)).rels = st.rels := by
      simp only [stepApi, updateMemory]
      cases dlookup st.mems i <;> rfl
    rw [this]
    exact hu
  | deleteM i =>
    have : (stepApi st (.deleteM i)).rels = st.rels := by
      simp only [stepApi, deleteMemory]
      by_cases h : (dlookup st.mems i).isSome <;> simp [h]
    rw [this]
    exact hu
  | createRelH rid now f t ty s md =>
    exact relUnique_createHandler st rid now f t ty s md hu
  | deleteR i =>
    simp only [stepApi, deleteRelation]
    by_cases h : (dlookup st.rels i).isSome
    · simp only [if_pos h]
      intro r1 h1 r2 h2 hf ht hty
      exact hu r1 (mem_dvalues_derase _ _ _ h1) r2 (mem_dvalues_derase _ _ _ h2)
        hf ht hty
    · simp only [if_neg h]
      exact hu

theorem relUnique_runApi (ops : List ApiOp) :
    RelTripleUnique (runApi ops).rels := by
  have hinit : RelTripleUnique StorageState.init.rels := by
    intro r1 h1
    simp [StorageState.init, dvalues] at h1
  rw [runApi]
  have hfold : ∀ st : StorageState, RelTripleUnique st.rels →
      RelTripleUnique (ops.foldl stepApi st).rels := by
    induction ops with
    | nil => intro st h; exact h
    | cons op rest ih =>
      intro st h
      exact ih (stepApi st op) (relUnique_stepApi st op h)
  exact hfold StorageState.init hinit

/-! ## Claim C6 — relation uniqueness -/

/-- C6: creating a relation whose `(from, to, type)` triple matches an
existing one (with nonempty components, as the handler's truthiness-based
filters assume) fails with a conflict naming an existing relation carrying
exactly that triple and appends nothing; each handler call preserves the
at-most-one-relation-per-triple invariant; and along every trace of
tool-level operations from an empty store the invariant holds at every
point. -/
theorem claim_C6 (st : StorageState) (rid : String) (now : Int)
    (from_id to_id relation_type : String) (strength : Real)
    (md : List (String × String)) :
    (¬(from_id = "") → ¬(to_id = "") → ¬(relation_type = "") →
      (dlookup st.mems from_id).isSome = true →
      (dlookup st.mems to_id).isSome = true →
      ∀ er ∈ dvalues st.rels, er.from_memory_id = from_id →
        er.to_memory_id = to_id → er.relation_type = relation_type →
      (create_relation_handler st rid now from_id to_id relation_type
          strength md).1.success = false ∧
      (∃ r0, (create_relation_handler st rid now from_id to_id relation_type
            strength md).1.existing_relation_id = some r0.id ∧
          r0 ∈ dvalues st.rels ∧ r0.from_memory_id = from_id ∧
          r0.to_memory_id = to_id ∧ r0.relation_type = relation_type) ∧
      (create_relation_handler st rid now from_id to_id relation_type
          strength md).2 = st) ∧
    (RelTripleUnique st.rels →
      RelTripleUnique (create_relation_handler st rid now from_id to_id
        relation_type strength md).2.rels) ∧
    (∀ ops : List ApiOp, RelTripleUnique (runApi ops).rels) := by
  refine ⟨?_, relUnique_createHandler st rid now from_id to_id relation_type
    strength md, relUnique_runApi⟩
  intro hfne htne htyne hfm htm er hermem herf hert herty
  obtain ⟨mf, hmf⟩ := Option.isSome_iff_exists.mp hfm
  obtain ⟨mt, hmt⟩ := Option.isSome_iff_exists.mp htm
  have hermem2 := mem_get_relations_of_triple st.rels from_id to_id
    relation_type er hermem herf hert herty
  cases hgr : get_relations st.rels (some from_id) (some to_id)
      (some relation_type) with
  | nil =>
    rw [hgr] at hermem2
    simp at hermem2
  | cons e tail =>
    have hesound := get_relations_sound st.rels from_id to_id relation_type e
      hfne htne htyne (by rw [hgr]; exact List.mem_cons_self _ _)
    refine ⟨?_, ⟨e, ?_, hesound.1, hesound.2.1, hesound.2.2.1,
      hesound.2.2.2⟩, ?_⟩ <;>
      simp only [create_relation_handler, hmf, hmt, hgr]

/-- C6 witness: the theorem applied to the sample store, where the triple
`("a", "b", "references")` already exists as relation `r0`: re-creating it
conflicts, names an existing relation with that triple and leaves the
state unchanged; and the uniqueness invariant holds along traces. -/
theorem claim_C6_witness :
    ((create_relation_handler sampleState ("r1") 9 ("a") ("b") ("references")
        1 []).1.success = false ∧
      (∃ r0, (create_relation_handler sampleState ("r1") 9 ("a") ("b")
            ("references") 1 []).1.existing_relation_id = some r0.id ∧
          r0 ∈ dvalues sampleState.rels ∧ r0.from_memory_id = "a" ∧
          r0.to_memory_id = "b" ∧ r0.relation_type = "references") ∧
      (create_relation_handler sampleState ("r1") 9 ("a") ("b") ("references")
          1 []).2 = sampleState) ∧
    (RelTripleUnique (runApi []).rels) :=
  ⟨(claim_C6 sampleState ("r1") 9 ("a") ("b") ("references") 1 []).1
      (by simp) (by simp) (by simp)
      (by simp [sampleState, dlookup]) (by simp [sampleState, dlookup])
      sampleRel (by simp [sampleState, dvalues]) rfl rfl rfl,
    (claim_C6 sampleState ("r1") 9 ("a") ("b") ("references") 1 []).2.2 []⟩

/-! ## Lemmas about activation scoring -/

theorem calculate_score_nonneg (use_count : Nat) (last_used : Int)
    (strength : Real) (now : Int) (lambda_ beta : Real) (hs : 0 ≤ strength) :
    0 ≤ calculate_score use_count last_used strength now lambda_ beta := by
  simp only [calculate_score]
  refine mul_nonneg (mul_nonneg ?_ (Real.exp_pos _).le) hs
  by_cases h : 0 < use_count
  · simp only [if_pos h]
    exact Real.rpow_nonneg (by positivity) _
  · simp [if_neg h]

theorem activationCalculate_final (memory_id : String) (b t s : Real)
    (src : ActivationSource) (mk : List String) :
    (ActivationScore.calculate memory_id b t s src mk).final_score =
      min (0.5 * b + 0.3 * t + 0.2 * s) 1 := rfl

theorem activationCalculate_base (memory_id : String) (b t s : Real)
    (src : ActivationSource) (mk : List String) :
    (ActivationScore.calculate memory_id b t s src mk).base_relevance = b := rfl

theorem activationCalculate_temporal (memory_id : String) (b t s : Real)
    (src : ActivationSource) (mk : List String) :
    (ActivationScore.calculate memory_id b t s src mk).temporal_score = t := rfl

theorem activationCalculate_spread (memory_id : String) (b t s : Real)
    (src : ActivationSource) (mk : List String) :
    (ActivationScore.calculate memory_id b t s src mk).spreading_score = s := rfl

theorem activationCalculate_source (memory_id : String) (b t s : Real)
    (src : ActivationSource) (mk : List String) :
    (ActivationScore.calculate memory_id b t s src mk).source = src := rfl

theorem scoreWellFormed_final_bounds (sc : ActivationScore)
    (h : ScoreWellFormed sc) : 0 ≤ sc.final_score ∧ sc.final_score ≤ 1 := by
  obtain ⟨hb0, hb1, ht0, ht1, hs0, hs1, hf⟩ := h
  rw [hf]
  constructor
  · refine le_min ?_ zero_le_one
    have h1 : (0:Real) ≤ 0.5 * sc.base_relevance := by
      apply mul_nonneg (by norm_num) hb0
    have h2 : (0:Real) ≤ 0.3 * sc.temporal_score := by
      apply mul_nonneg (by norm_num) ht0
    have h3 : (0:Real) ≤ 0.2 * sc.spreading_score := by
      apply mul_nonneg (by norm_num) hs0
    linarith
  · exact min_le_right _ _

theorem activationCalculate_wellFormed (memory_id : String) (b t s : Real)
    (src : ActivationSource) (mk : List String)
    (hb0 : 0 ≤ b) (hb1 : b ≤ 1) (ht0 : 0 ≤ t) (ht1 : t ≤ 1)
    (hs0 : 0 ≤ s) (hs1 : s ≤ 1) :
    ScoreWellFormed (ActivationScore.calculate memory_id b t s src mk) :=
  ⟨hb0, hb1, ht0, ht1, hs0, hs1, rfl⟩

theorem temporal_score_bounds (use_count : Nat) (last_used : Int)
    (strength : Real) (now : Int) (lambda_ beta : Real) (hs : 0 ≤ strength) :
    0 ≤ min (calculate_score use_count last_used strength now lambda_ beta / 2) 1 ∧
      min (calculate_score use_count last_used strength now lambda_ beta / 2) 1 ≤ 1 :=
  ⟨le_min (div_nonneg (calculate_score_nonneg _ _ _ _ _ _ hs) (by norm_num))
      zero_le_one,
    min_le_right _ _⟩

theorem hopSource_eq_tagOfDepth (hp : Nat) :
    hopSource hp = tagOfDepth (hp + 1) := by
  match hp with
  | 0 => rfl
  | 1 => rfl
  | n + 2 =>
    have h1 : ¬(n + 2 = 0) := by omega
    have h2 : ¬(n + 2 = 1) := by omega
    have h3 : ¬(n + 2 + 1 = 1) := by omega
    have h4 : ¬(n + 2 + 1 = 2) := by omega
    simp [hopSource, tagOfDepth, h1, h2, h3, h4]

theorem calculate_keyword_relevance_spec (env : ActivationEnv)
    (memory : Memory) (keywords : List String) (r : Real × List String)
    (h : calculate_keyword_relevance env memory keywords = .ok r) :
    0 ≤ r.1 ∧ r.1 ≤ 1 := by
  unfold calculate_keyword_relevance at h
  by_cases hk : keywords = []
  · rw [if_pos hk] at h
    cases h
    norm_num
  · rw [if_neg hk] at h
    cases hck : env.extract_keywords memory.content 20 with
    | error e =>
      rw [hck] at h
      simp only [bind, Except.bind] at h
      exact Except.noConfusion h
    | ok ck =>
      rw [hck] at h
      simp only [bind, Except.bind] at h
      cases h
      constructor
      · refine le_min (div_nonneg ?_ ?_) zero_le_one <;> positivity
      · exact min_le_right _ _

theorem directFinals_bounds (scores0 : Dict ActivationScore)
    (direct : List String) (h : ∀ p ∈ scores0, ScoreWellFormed p.2) :
    ∀ f ∈ directFinals scores0 direct, 0 ≤ f ∧ f ≤ 1 := by
  intro f hf
  simp only [directFinals, List.mem_map, List.mem_filterMap] at hf
  obtain ⟨sc, ⟨id, _, hlk⟩, hfs⟩ := hf
  have hmem := dlookup_mem _ _ _ hlk
  have hwf := h (id, sc) hmem
  rw [← hfs]
  exact scoreWellFormed_final_bounds sc hwf

theorem spreadEntryProp_wellFormed (F : List Real) (sc : ActivationScore)
    (hF : ∀ f ∈ F, 0 ≤ f ∧ f ≤ 1) (h : SpreadEntryProp F sc) :
    ScoreWellFormed sc := by
  obtain ⟨d, f, hd1, hd3, hfF, hsrc, hspread, hbase, ht0, ht1, hfin⟩ := h
  obtain ⟨hf0, hf1⟩ := hF f hfF
  have hpow0 : (0:Real) ≤ (0.5:Real) ^ spreadHopExponent d := by positivity
  have hpow1 : (0.5:Real) ^ spreadHopExponent d ≤ 1 :=
    pow_le_one₀ (by norm_num) (by norm_num)
  refine ⟨by rw [hbase], by rw [hbase]; norm_num, ht0, ht1, ?_, ?_, ?_⟩
  · rw [hspread]
    exact mul_nonneg hf0 hpow0
  · rw [hspread]
    have := mul_le_mul hf1 hpow1 hpow0 zero_le_one
    linarith
  · rw [hfin, hbase]

/-! ## Lemmas about the fetch and direct-scoring folds -/

theorem fetchStep_strength (env : ActivationEnv) (Henv : EnvStrengthNonneg env)
    (acc : Dict Memory) (mem_id : String) (out : Dict Memory)
    (hacc : ∀ p ∈ acc, 0 ≤ p.2.strength)
    (h : fetchStep env acc mem_id = .ok out) :
    ∀ p ∈ out, 0 ≤ p.2.strength := by
  unfold fetchStep at h
  cases hg : env.get_memory mem_id with
  | error e =>
    rw [hg] at h
    simp only [bind, Except.bind] at h
    exact Except.noConfusion h
  | ok mo =>
    rw [hg] at h
    simp only [bind, Except.bind] at h
    cases mo with
    | none =>
      simp only [pure, Except.pure] at h
      cases h
      exact hacc
    | some mem =>
      simp only [pure, Except.pure] at h
      cases h
      intro p hp
      rcases mem_dinsert _ _ _ _ hp with h2 | h2
      · rw [h2]
        exact Henv mem_id mem hg
      · exact hacc p h2

theorem fetch_fold_strength (env : ActivationEnv) (Henv : EnvStrengthNonneg env) :
    ∀ (ids : List String) (acc out : Dict Memory),
      (∀ p ∈ acc, 0 ≤ p.2.strength) →
      List.foldlM (fetchStep env) acc ids = .ok out →
      ∀ p ∈ out, 0 ≤ p.2.strength := by
  intro ids
  induction ids with
  | nil =>
    intro acc out hacc h
    simp only [List.foldlM_nil, pure, Except.pure] at h
    cases h
    exact hacc
  | cons x xs ih =>
    intro acc out hacc h
    rw [List.foldlM_cons] at h
    cases hs : fetchStep env acc x with
    | error e =>
      rw [hs] at h
      simp only [bind, Except.bind] at h
      exact Except.noConfusion h
    | ok acc2 =>
      rw [hs] at h
      simp only [bind, Except.bind] at h
      exact ih acc2 out (fetchStep_strength env Henv acc x acc2 hacc hs) h

theorem fetch_memories_strength (env : ActivationEnv)
    (Henv : EnvStrengthNonneg env) (ids : List String) (out : Dict Memory)
    (h : fetch_memories env ids = .ok out) : ∀ p ∈ out, 0 ≤ p.2.strength :=
  fetch_fold_strength env Henv ids [] out (by simp) h

theorem scoreStep_wellFormed (env : ActivationEnv) (now : Int)
    (lambda_ beta : Real) (keywords : List String)
    (acc : Dict ActivationScore × List String) (p : String × Memory)
    (out : Dict ActivationScore × List String)
    (hstr : 0 ≤ p.2.strength)
    (hacc : ∀ q ∈ acc.1, ScoreWellFormed q.2)
    (h : scoreStep env now lambda_ beta keywords acc p = .ok out) :
    ∀ q ∈ out.1, ScoreWellFormed q.2 := by
  unfold scoreStep at h
  cases hr : calculate_keyword_relevance env p.2 keywords with
  | error e =>
    rw [hr] at h
    simp only [bind, Except.bind] at h
    exact Except.noConfusion h
  | ok r =>
    rw [hr] at h
    simp only [bind, Except.bind, pure, Except.pure] at h
    cases h
    intro q hq
    rcases mem_dinsert _ _ _ _ hq with h2 | h2
    · rw [h2]
      obtain ⟨hr0, hr1⟩ := calculate_keyword_relevance_spec env p.2 keywords r hr
      obtain ⟨ht0, ht1⟩ := temporal_score_bounds p.2.use_count p.2.last_used
        p.2.strength now lambda_ beta hstr
      exact activationCalculate_wellFormed _ _ _ _ _ _ hr0 hr1 ht0 ht1
        le_rfl zero_le_one
    · exact hacc q h2

theorem score_fold_wellFormed (env : ActivationEnv) (now : Int)
    (lambda_ beta : Real) (keywords : List String) :
    ∀ (mm : Dict Memory) (acc out : Dict ActivationScore × List String),
      (∀ p ∈ mm, 0 ≤ p.2.strength) →
      (∀ q ∈ acc.1, ScoreWellFormed q.2) →
      List.foldlM (scoreStep env now lambda_ beta keywords) acc mm = .ok out →
      ∀ q ∈ out.1, ScoreWellFormed q.2 := by
  intro mm
  induction mm with
  | nil =>
    intro acc out _ hacc h
    simp only [List.foldlM_nil, pure, Except.pure] at h
    cases h
    exact hacc
  | cons x xs ih =>
    intro acc out hmm hacc h
    rw [List.foldlM_cons] at h
    cases hs : scoreStep env now lambda_ beta keywords acc x with
    | error e =>
      rw [hs] at h
      simp only [bind, Except.bind] at h
      exact Except.noConfusion h
    | ok acc2 =>
      rw [hs] at h
      simp only [bind, Except.bind] at h
      refine ih acc2 out (fun p hp => hmm p (List.mem_cons_of_mem _ hp)) ?_ h
      exact scoreStep_wellFormed env now lambda_ beta keywords acc x acc2
        (hmm x (List.mem_cons_self _ _)) hacc hs

theorem score_direct_wellFormed (env : ActivationEnv) (now : Int)
    (lambda_ beta : Real) (keywords : List String) (mm : Dict Memory)
    (out : Dict ActivationScore × List String)
    (hmm : ∀ p ∈ mm, 0 ≤ p.2.strength)
    (h : score_direct env now lambda_ beta keywords mm = .ok out) :
    ∀ q ∈ out.1, ScoreWellFormed q.2 :=
  score_fold_wellFormed env now lambda_ beta keywords mm ([], []) out hmm
    (by simp) h

/-! ## Invariants of the spreading-activation worklist -/

theorem spreadVisit_inv (F : List Real) (base : Dict ActivationScore)
    (V0 : List String) (now : Int) (lambda_ beta : Real) (hop : Nat) (s : Real)
    (id : String) (mem : Memory) (stv : SpreadState)
    (hinv : SpreadInv F base V0 stv)
    (hidvis : id ∈ stv.visited)
    (hidspread : id ∉ stv.spread_matches)
    (hidV0 : id ∉ V0)
    (hmemstr : 0 ≤ mem.strength)
    (hhop : hop ≤ 2)
    (hsrc : (hop = 0 ∧ s ∈ F) ∨ (1 ≤ hop ∧ hop ≤ 3 ∧
      ∃ f ∈ F, s = f * (0.5 : Real) ^ spreadHopExponent hop)) :
    SpreadInv F base V0 (spreadVisit now lambda_ beta hop s id mem stv).1 ∧
    (spreadVisit now lambda_ beta hop s id mem stv).1.visited = stv.visited ∧
    (spreadVisit now lambda_ beta hop s id mem stv).1.memory_map
      = stv.memory_map ∧
    (spreadVisit now lambda_ beta hop s id mem stv).1.spread_matches
      = stv.spread_matches ++ [id] ∧
    (∀ k, ¬(k = id) →
      dlookup (spreadVisit now lambda_ beta hop s id mem stv).1.activation_scores k
        = dlookup stv.activation_scores k) ∧
    QEntryProp F (spreadVisit now lambda_ beta hop s id mem stv).2 := by
  obtain ⟨i1, i2, i3, i4, i5, i6, i7⟩ := hinv
  have hfactor : ∃ f ∈ F,
      s * (0.5 : Real) ^ (hop + 1)
        = f * (0.5 : Real) ^ spreadHopExponent (hop + 1) := by
    rcases hsrc with ⟨h0, hsF⟩ | ⟨hge, _, f, hfF, hfs⟩
    · subst h0
      exact ⟨s, hsF, rfl⟩
    · refine ⟨f, hfF, ?_⟩
      rw [hfs, mul_assoc, ← pow_add]
      rfl
  obtain ⟨f, hfF, hfeq⟩ := hfactor
  have hT : spreadHopExponent (hop + 1) = spreadHopExponent hop + (hop + 1) := rfl
  obtain ⟨ht0, ht1⟩ := temporal_score_bounds mem.use_count mem.last_used
    mem.strength now lambda_ beta hmemstr
  have hsc : SpreadEntryProp F
      (ActivationScore.calculate id 0
        (min (calculate_score mem.use_count mem.last_used mem.strength now
          lambda_ beta / 2) 1)
        (s * (0.5 : Real) ^ (hop + 1)) (hopSource hop) []) := by
    refine ⟨hop + 1, f, Nat.le_add_left _ _, by omega, hfF, ?_, ?_, rfl, ht0, ht1, rfl⟩
    · rw [activationCalculate_source, hopSource_eq_tagOfDepth]
    · rw [activationCalculate_spread, hfeq]
  have hspreadsub : ∀ id2 ∈ stv.spread_matches, ¬(id2 = id) := by
    intro id2 h2 heq
    exact hidspread (heq ▸ h2)
  refine ⟨⟨?_, ?_, ?_, ?_, ?_, ?_, ?_⟩, rfl, rfl, rfl, ?_, ?_⟩
  · intro p hp
    rcases mem_dinsert _ _ _ _ hp with h2 | h2
    · right
      rw [h2]
      exact hsc
    · exact i1 p h2
  · exact i2
  · exact i3
  · intro id2 h2
    simp only [spreadVisit, List.mem_append, List.mem_singleton] at h2
    rcases h2 with h2 | h2
    · exact i4 id2 h2
    · exact h2 ▸ hidvis
  · intro id2 h2
    simp only [spreadVisit, List.mem_append, List.mem_singleton] at h2
    rcases h2 with h2 | h2
    · obtain ⟨sc, hlk, hprop⟩ := i5 id2 h2
      refine ⟨sc, ?_, hprop⟩
      simp only [spreadVisit]
      rw [dlookup_dinsert_ne _ _ _ _ (hspreadsub id2 h2)]
      exact hlk
    · subst h2
      refine ⟨_, ?_, hsc⟩
      simp only [spreadVisit]
      exact dlookup_dinsert_self _ _ _
  · simp only [spreadVisit, List.nodup_append, List.nodup_cons,
      List.not_mem_nil, List.nodup_nil]
    refine ⟨i6, by simp, ?_⟩
    intro a ha
    simp only [List.mem_singleton]
    intro hb
    rw [hb] at ha
    exact hidspread ha
  · intro id2 h2
    simp only [spreadVisit, List.mem_append, List.mem_singleton] at h2
    rcases h2 with h2 | h2
    · exact i7 id2 h2
    · exact h2 ▸ hidV0
  · intro k hk
    simp only [spreadVisit]
    exact dlookup_dinsert_ne _ _ _ _ hk
  · have hv2 : (spreadVisit now lambda_ beta hop s id mem stv).2
        = (id, hop + 1, s * (0.5 : Real) ^ (hop + 1)) := rfl
    rw [hv2]
    right
    refine ⟨?_, ?_, f, hfF, ?_⟩
    · show 1 ≤ hop + 1
      omega
    · show hop + 1 ≤ 3
      omega
    · show s * (0.5 : Real) ^ (hop + 1)
        = f * (0.5 : Real) ^ spreadHopExponent (hop + 1)
      exact hfeq

theorem processChildren_inv (env : ActivationEnv) (now : Int)
    (lambda_ beta : Real) (F : List Real) (base : Dict ActivationScore)
    (V0 : List String) (Henv : EnvStrengthNonneg env) (hop : Nat) (s : Real)
    (hhop : hop ≤ 2)
    (hsrc : (hop = 0 ∧ s ∈ F) ∨ (1 ≤ hop ∧ hop ≤ 3 ∧
      ∃ f ∈ F, s = f * (0.5 : Real) ^ spreadHopExponent hop)) :
    ∀ (children : List String) (st : SpreadState)
      (newq : List (String × Nat × Real)),
      SpreadInv F base V0 st →
      (∀ e ∈ newq, QEntryProp F e) →
      SpreadInv F base V0
        (processChildren env now lambda_ beta hop s children st newq).1 ∧
      (∀ e ∈ (processChildren env now lambda_ beta hop s children st newq).2.1,
        QEntryProp F e) ∧
      (∀ k ∈ st.visited,
        dlookup (processChildren env now lambda_ beta hop s children st
          newq).1.activation_scores k = dlookup st.activation_scores k) ∧
      (∀ k ∈ st.visited,
        k ∈ (processChildren env now lambda_ beta hop s children st
          newq).1.visited) ∧
      (∀ id2 ∈ st.spread_matches,
        id2 ∈ (processChildren env now lambda_ beta hop s children st
          newq).1.spread_matches) := by
  intro children
  induction children with
  | nil =>
    intro st newq hinv hq
    exact ⟨hinv, hq, fun k _ => rfl, fun k hk => hk, fun id2 h2 => h2⟩
  | cons c rest ih =>
    intro st newq hinv hq
    by_cases hc : c ∈ st.visited
    · have hstep : processChildren env now lambda_ beta hop s (c :: rest) st newq
          = processChildren env now lambda_ beta hop s rest st newq := by
        simp only [processChildren, if_pos hc]
      rw [hstep]
      exact ih st newq hinv hq
    · obtain ⟨i1, i2, i3, i4, i5, i6, i7⟩ := hinv
      have hinv1 : SpreadInv F base V0 { st with visited := st.visited ++ [c] } :=
        ⟨i1, i2, fun k hk => List.mem_append_left _ (i3 k hk),
          fun id h => List.mem_append_left _ (i4 id h), i5, i6, i7⟩
      have hcspread : c ∉ st.spread_matches := fun h => hc (i4 c h)
      have hcV0 : c ∉ V0 := fun h => hc (i3 c h)
      have hne_of_vis : ∀ k ∈ st.visited, ¬(k = c) := by
        intro k hk heq
        exact hc (heq ▸ hk)
      cases hmm : dlookup st.memory_map c with
      | some mem =>
        have hstep : processChildren env now lambda_ beta hop s (c :: rest) st newq
            = processChildren env now lambda_ beta hop s rest
                (spreadVisit now lambda_ beta hop s c mem
                  { st with visited := st.visited ++ [c] }).1
                (newq ++ [(spreadVisit now lambda_ beta hop s c mem
                  { st with visited := st.visited ++ [c] }).2]) := by
          simp only [processChildren, if_neg hc, hmm]
        have hmemstr : 0 ≤ mem.strength := i2 (c, mem) (dlookup_mem _ _ _ hmm)
        have hv := spreadVisit_inv F base V0 now lambda_ beta hop s c mem
          { st with visited := st.visited ++ [c] } hinv1 (by simp) hcspread
          hcV0 hmemstr hhop hsrc
        obtain ⟨hvinv, hvvis, _, hvspread, hvfrozen, hvq⟩ := hv
        have hrec := ih (spreadVisit now lambda_ beta hop s c mem
            { st with visited := st.visited ++ [c] }).1
          (newq ++ [(spreadVisit now lambda_ beta hop s c mem
            { st with visited := st.visited ++ [c] }).2]) hvinv ?_
        · obtain ⟨r1, r2, r3, r4, r5⟩ := hrec
          rw [hstep]
          refine ⟨r1, r2, ?_, ?_, ?_⟩
          · intro k hk
            have hkv : k ∈ (spreadVisit now lambda_ beta hop s c mem
                { st with visited := st.visited ++ [c] }).1.visited := by
              rw [hvvis]
              exact List.mem_append_left _ hk
            rw [r3 k hkv, hvfrozen k (hne_of_vis k hk)]
          · intro k hk
            refine r4 k ?_
            rw [hvvis]
            exact List.mem_append_left _ hk
          · intro id2 h2
            refine r5 id2 ?_
            rw [hvspread]
            exact List.mem_append_left _ h2
        · intro e he
          rcases List.mem_append.mp he with he | he
          · exact hq e he
          · rw [List.mem_singleton.mp he]
            exact hvq
      | none =>
        cases hget : env.get_memory c with
        | error e =>
          have hstep : processChildren env now lambda_ beta hop s (c :: rest) st newq
              = ({ st with visited := st.visited ++ [c] }, newq, some e) := by
            simp only [processChildren, if_neg hc, hmm, hget]
          rw [hstep]
          exact ⟨hinv1, hq, fun k _ => rfl,
            fun k hk => List.mem_append_left _ hk, fun id2 h2 => h2⟩
        | ok mo =>
          cases mo with
          | none =>
            have hstep : processChildren env now lambda_ beta hop s (c :: rest) st newq
                = processChildren env now lambda_ beta hop s rest
                    { st with visited := st.visited ++ [c] } newq := by
              simp only [processChildren, if_neg hc, hmm, hget]
            rw [hstep]
            have hrec := ih { st with visited := st.visited ++ [c] } newq hinv1 hq
            obtain ⟨r1, r2, r3, r4, r5⟩ := hrec
            refine ⟨r1, r2, ?_, ?_, r5⟩
            · intro k hk
              exact r3 k (List.mem_append_left _ hk)
            · intro k hk
              exact r4 k (List.mem_append_left _ hk)
          | some mem =>
            have hstep : processChildren env now lambda_ beta hop s (c :: rest) st newq
                = processChildren env now lambda_ beta hop s rest
                    (spreadVisit now lambda_ beta hop s c mem
                      { st with visited := st.visited ++ [c], memory_map := dinsert st.memory_map c mem }).1
                    (newq ++ [(spreadVisit now lambda_ beta hop s c mem
                      { st with visited := st.visited ++ [c], memory_map := dinsert st.memory_map c mem }).2]) := by
              simp only [processChildren, if_neg hc, hmm, hget]
            have hinv2 : SpreadInv F base V0
                { st with visited := st.visited ++ [c], memory_map := dinsert st.memory_map c mem } := by
              refine ⟨i1, ?_, fun k hk => List.mem_append_left _ (i3 k hk),
                fun id h => List.mem_append_left _ (i4 id h), i5, i6, i7⟩
              intro p hp
              rcases mem_dinsert _ _ _ _ hp with h2 | h2
              · rw [h2]
                exact Henv c mem hget
              · exact i2 p h2
            have hv := spreadVisit_inv F base V0 now lambda_ beta hop s c mem
              { st with visited := st.visited ++ [c], memory_map := dinsert st.memory_map c mem } hinv2 (by simp)
              hcspread hcV0 (Henv c mem hget) hhop hsrc
            obtain ⟨hvinv, hvvis, _, hvspread, hvfrozen, hvq⟩ := hv
            have hrec := ih (spreadVisit now lambda_ beta hop s c mem
                { st with visited := st.visited ++ [c], memory_map := dinsert st.memory_map c mem }).1
              (newq ++ [(spreadVisit now lambda_ beta hop s c mem
                { st with visited := st.visited ++ [c], memory_map := dinsert st.memory_map c mem }).2]) hvinv ?_
            · obtain ⟨r1, r2, r3, r4, r5⟩ := hrec
              rw [hstep]
              refine ⟨r1, r2, ?_, ?_, ?_⟩
              · intro k hk
                have hkv : k ∈ (spreadVisit now lambda_ beta hop s c mem
                    { st with visited := st.visited ++ [c], memory_map := dinsert st.memory_map c mem }).1.visited := by
                  rw [hvvis]
                  exact List.mem_append_left _ hk
                rw [r3 k hkv, hvfrozen k (hne_of_vis k hk)]
              · intro k hk
                refine r4 k ?_
                rw [hvvis]
                exact List.mem_append_left _ hk
              · intro id2 h2
                refine r5 id2 ?_
                rw [hvspread]
                exact List.mem_append_left _ h2
            · intro e he
              rcases List.mem_append.mp he with he | he
              · exact hq e he
              · rw [List.mem_singleton.mp he]
                exact hvq

theorem spreadLoop_inv (env : ActivationEnv) (now : Int) (lambda_ beta : Real)
    (F : List Real) (base : Dict ActivationScore) (V0 : List String)
    (Henv : EnvStrengthNonneg env) :
    ∀ (fuel : Nat) (queue : List (String × Nat × Real)) (st : SpreadState),
      (∀ e ∈ queue, QEntryProp F e) →
      SpreadInv F base V0 st →
      SpreadInv F base V0 (spreadLoop env now lambda_ beta fuel queue st).1 ∧
      (∀ k ∈ st.visited,
        dlookup (spreadLoop env now lambda_ beta fuel queue st).1.activation_scores k
          = dlookup st.activation_scores k) ∧
      (∀ k ∈ st.visited,
        k ∈ (spreadLoop env now lambda_ beta fuel queue st).1.visited) ∧
      (∀ id2 ∈ st.spread_matches,
        id2 ∈ (spreadLoop env now lambda_ beta fuel queue st).1.spread_matches) := by
  intro fuel
  induction fuel with
  | zero =>
    intro queue st hq hinv
    exact ⟨hinv, fun k _ => rfl, fun k hk => hk, fun i h => h⟩
  | succ fuel ih =>
    intro queue st hq hinv
    cases queue with
    | nil => exact ⟨hinv, fun k _ => rfl, fun k hk => hk, fun i h => h⟩
    | cons head rest =>
      obtain ⟨current_id, hop, s⟩ := head
      by_cases hhop : 3 ≤ hop
      · have hstep : spreadLoop env now lambda_ beta (fuel + 1)
            ((current_id, hop, s) :: rest) st
            = spreadLoop env now lambda_ beta fuel rest st := by
          simp only [spreadLoop, if_pos hhop]
        rw [hstep]
        exact ih rest st (fun e he => hq e (List.mem_cons_of_mem _ he)) hinv
      · have hsrc : (hop = 0 ∧ s ∈ F) ∨ (1 ≤ hop ∧ hop ≤ 3 ∧
            ∃ f ∈ F, s = f * (0.5 : Real) ^ spreadHopExponent hop) :=
          hq (current_id, hop, s) (List.mem_cons_self _ _)
        have hhop2 : hop ≤ 2 := by omega
        have hpc := processChildren_inv env now lambda_ beta F base V0 Henv
          hop s hhop2 hsrc (env.graph.get_related_memories current_id) st []
          hinv (by simp)
        cases hpcv : processChildren env now lambda_ beta hop s
            (env.graph.get_related_memories current_id) st [] with
        | mk st2 pr =>
          obtain ⟨newq, erropt⟩ := pr
          rw [hpcv] at hpc
          obtain ⟨pc1, pc2, pc3, pc4, pc5⟩ := hpc
          cases erropt with
          | some e =>
            have hstep : spreadLoop env now lambda_ beta (fuel + 1)
                ((current_id, hop, s) :: rest) st = (st2, some e) := by
              simp only [spreadLoop, if_neg hhop, hpcv]
            rw [hstep]
            exact ⟨pc1, pc3, pc4, pc5⟩
          | none =>
            have hstep : spreadLoop env now lambda_ beta (fuel + 1)
                ((current_id, hop, s) :: rest) st
                = spreadLoop env now lambda_ beta fuel (rest ++ newq) st2 := by
              simp only [spreadLoop, if_neg hhop, hpcv]
            rw [hstep]
            have hrec := ih (rest ++ newq) st2 ?_ pc1
            · obtain ⟨r1, r2, r3, r4⟩ := hrec
              refine ⟨r1, ?_, ?_, ?_⟩
              · intro k hk
                rw [r2 k (pc4 k hk), pc3 k hk]
              · intro k hk
                exact r3 k (pc4 k hk)
              · intro id2 h2
                exact r4 id2 (pc5 id2 h2)
            · intro e he
              rcases List.mem_append.mp he with he | he
              · exact hq e (List.mem_cons_of_mem _ he)
              · exact pc2 e he

theorem apply_spreading_spec (env : ActivationEnv) (now : Int)
    (lambda_ beta : Real) (direct : List String)
    (scores0 : Dict ActivationScore) (mm0 : Dict Memory)
    (Henv : EnvStrengthNonneg env)
    (hmm0 : ∀ p ∈ mm0, 0 ≤ p.2.strength) :
    SpreadInv (directFinals scores0 direct) scores0 direct
      (apply_spreading_activation env now lambda_ beta direct scores0 mm0).1 ∧
    (∀ k ∈ direct,
      dlookup (apply_spreading_activation env now lambda_ beta direct scores0
        mm0).1.activation_scores k = dlookup scores0 k) := by
  have hinv0 : SpreadInv (directFinals scores0 direct) scores0 direct
      { activation_scores := scores0, memory_map := mm0, visited := direct,
        spread_matches := [] } := by
    refine ⟨fun p hp => Or.inl hp, hmm0, fun k hk => hk, ?_, ?_, ?_, ?_⟩
    · intro id h
      exact absurd h (List.not_mem_nil _)
    · intro id h
      exact absurd h (List.not_mem_nil _)
    · exact List.nodup_nil
    · intro id h
      exact absurd h (List.not_mem_nil _)
  have hq0 : ∀ e ∈ (direct.filterMap (fun mem_id =>
      (dlookup scores0 mem_id).map (fun sc => (mem_id, 0, sc.final_score)))
        : List (String × Nat × Real)),
      QEntryProp (directFinals scores0 direct) e := by
    intro e he
    simp only [List.mem_filterMap] at he
    obtain ⟨id, hid, hmap⟩ := he
    cases hlk : dlookup scores0 id with
    | none => rw [hlk] at hmap; cases hmap
    | some sc =>
      rw [hlk] at hmap
      simp only [Option.map_some', Option.some.injEq] at hmap
      rw [← hmap]
      left
      refine ⟨rfl, ?_⟩
      simp only [directFinals, List.mem_map]
      refine ⟨sc, ?_, rfl⟩
      simp only [List.mem_filterMap]
      exact ⟨id, hid, hlk⟩
  have hloop := spreadLoop_inv env now lambda_ beta
    (directFinals scores0 direct) scores0 direct Henv
    ((direct.filterMap (fun mem_id =>
      (dlookup scores0 mem_id).map (fun sc => (mem_id, 0, sc.final_score)))
        : List (String × Nat × Real)).length +
      ((dvalues env.graph.outgoing_relations).map List.length).sum + 1)
    ((direct.filterMap (fun mem_id =>
      (dlookup scores0 mem_id).map (fun sc => (mem_id, 0, sc.final_score)))
        : List (String × Nat × Real)))
    { activation_scores := scores0, memory_map := mm0, visited := direct,
      spread_matches := [] } hq0 hinv0
  obtain ⟨h1, h2, _, _⟩ := hloop
  exact ⟨h1, h2⟩

/-! ## Claim C3 — spreading-activation decay (corrected) -/

/-- C3 as amended: during spreading activation, every memory reached by
spreading was first reached at some BFS depth `h ∈ {1,2,3}` and its source
tag is exactly `tagOfDepth h`; no memory beyond 3 hops is reached and no
memory is visited twice (the spread matches are duplicate-free and
disjoint from the direct matches); the direct matches' own scores are left
untouched; and the spreading score of a memory at depth `h` equals the
final score of its originating direct match times
`0.5 ^ (1 + 2 + ⋯ + h)` — the per-hop multiplier is
`0.5 ** (hop_distance + 1)` applied to the propagated spreading score, so
the cumulative factors are `0.5`, `0.125`, `0.015625`, not the
`0.5 / 0.25 / 0.125` parent-final-times-0.5 rule the original claim
states (see the counterexample). -/
theorem claim_C3 (env : ActivationEnv) (now : Int) (lambda_ beta : Real)
    (direct : List String) (scores0 : Dict ActivationScore) (mm0 : Dict Memory)
    (Henv : EnvStrengthNonneg env) (hmm0 : ∀ p ∈ mm0, 0 ≤ p.2.strength) :
    (∀ p ∈ (apply_spreading_activation env now lambda_ beta direct scores0
        mm0).1.activation_scores,
      p ∈ scores0 ∨ SpreadEntryProp (directFinals scores0 direct) p.2) ∧
    (∀ id ∈ (apply_spreading_activation env now lambda_ beta direct scores0
        mm0).1.spread_matches,
      ∃ sc, dlookup (apply_spreading_activation env now lambda_ beta direct
          scores0 mm0).1.activation_scores id = some sc ∧
        SpreadEntryProp (directFinals scores0 direct) sc) ∧
    (apply_spreading_activation env now lambda_ beta direct scores0
      mm0).1.spread_matches.Nodup ∧
    (∀ id ∈ (apply_spreading_activation env now lambda_ beta direct scores0
        mm0).1.spread_matches, id ∉ direct) ∧
    (∀ k ∈ direct,
      dlookup (apply_spreading_activation env now lambda_ beta direct scores0
        mm0).1.activation_scores k = dlookup scores0 k) := by
  obtain ⟨⟨i1, _, _, _, i5, i6, i7⟩, hfrozen⟩ :=
    apply_spreading_spec env now lambda_ beta direct scores0 mm0 Henv hmm0
  exact ⟨i1, i5, i6, i7, hfrozen⟩

/-- C3 witness: the amended theorem applied to the concrete chain
`a → b → c` with one direct match `a`. -/
theorem claim_C3_witness :
    (∀ p ∈ (apply_spreading_activation chainEnv 0 1 1 ["a"] chainScores0
        chainMm0).1.activation_scores,
      p ∈ chainScores0 ∨
        SpreadEntryProp (directFinals chainScores0 ["a"]) p.2) ∧
    (∀ id ∈ (apply_spreading_activation chainEnv 0 1 1 ["a"] chainScores0
        chainMm0).1.spread_matches,
      ∃ sc, dlookup (apply_spreading_activation chainEnv 0 1 1 ["a"]
          chainScores0 chainMm0).1.activation_scores id = some sc ∧
        SpreadEntryProp (directFinals chainScores0 ["a"]) sc) ∧
    (apply_spreading_activation chainEnv 0 1 1 ["a"] chainScores0
      chainMm0).1.spread_matches.Nodup ∧
    (∀ id ∈ (apply_spreading_activation chainEnv 0 1 1 ["a"] chainScores0
        chainMm0).1.spread_matches, id ∉ ["a"]) ∧
    (∀ k ∈ ["a"],
      dlookup (apply_spreading_activation chainEnv 0 1 1 ["a"] chainScores0
        chainMm0).1.activation_scores k = dlookup chainScores0 k) :=
  claim_C3 chainEnv 0 1 1 ["a"] chainScores0 chainMm0
    (by
      intro id m h
      by_cases h1 : id = "a"
      · simp [chainEnv, h1] at h
        rw [← h]
        norm_num [sampleMem]
      · by_cases h2 : id = "b"
        · simp [chainEnv, h1, h2] at h
          rw [← h]
          norm_num [sampleMem2]
        · by_cases h3 : id = "c"
          · simp [chainEnv, h1, h2, h3] at h
            rw [← h]
            norm_num [chainMemC]
          · simp [chainEnv, h1, h2, h3] at h)
    (by
      intro p hp
      simp only [chainMm0, List.mem_singleton] at hp
      rw [hp]
      norm_num [sampleMem])

/-- C3 counterexample: on the chain `a → b → c` (direct match `a` with
final score `1/2`), the code assigns `c` — first reached at hop 2 — the
spreading score `1/16`, while its parent `b` has final score `1/20`; so
the claimed rule "spreading score equals the parent's final score times
the per-hop decay 0.5" (which would give `1/40`) is false, as is the
claimed hop-2 factor of `0.25` relative to the direct match (which would
give `1/8`). -/
theorem claim_C3_counterexample :
    ((dlookup (apply_spreading_activation chainEnv 0 1 1 ["a"] chainScores0
        chainMm0).1.activation_scores ("c")).map ActivationScore.spreading_score
      = some (1/16 : Real)) ∧
    ((dlookup (apply_spreading_activation chainEnv 0 1 1 ["a"] chainScores0
        chainMm0).1.activation_scores ("b")).map ActivationScore.final_score
      = some (1/20 : Real)) ∧
    ¬((1/16 : Real) = (1/20 : Real) * (1/2 : Real)) ∧
    ¬((1/16 : Real) = (1/4 : Real) * (1/2 : Real)) := by
  have hc : (dlookup (apply_spreading_activation chainEnv 0 1 1 ["a"]
        chainScores0 chainMm0).1.activation_scores ("c")).map
        ActivationScore.spreading_score
      = some (((min (0.5 * (1:Real) + 0.3 * 0 + 0.2 * 0) 1) *
          (0.5:Real) ^ (0+1)) * (0.5:Real) ^ (1+1)) := rfl
  have hb : (dlookup (apply_spreading_activation chainEnv 0 1 1 ["a"]
        chainScores0 chainMm0).1.activation_scores ("b")).map
        ActivationScore.final_score
      = some (min (0.5 * 0 + 0.3 * (min (calculate_score 0 0 1 0 1 1 / 2) 1)
          + 0.2 * ((min (0.5 * (1:Real) + 0.3 * 0 + 0.2 * 0) 1) *
            (0.5:Real) ^ (0+1))) 1) := rfl
  have hcs : calculate_score 0 0 1 0 1 1 = 0 := by
    simp [calculate_score]
  refine ⟨?_, ?_, by norm_num, by norm_num⟩
  · rw [hc]
    norm_num [min_def]
  · rw [hb, hcs]
    norm_num [min_def]

/-! ## Lemmas about the activate pipeline -/

theorem buildResult_spec (ctx : ActivationContext)
    (scores2 : Dict ActivationScore) (direct spread : List String)
    (total : Nat) (tier : String)
    (hwf : ∀ p ∈ scores2, ScoreWellFormed p.2) :
    (buildResult ctx scores2 direct spread total tier).activated_memories
      = (buildResult ctx scores2 direct spread total
          tier).activation_scores.map Prod.fst ∧
    (buildResult ctx scores2 direct spread total tier).activation_scores.length
      ≤ ctx.max_memories ∧
    (∀ p ∈ (buildResult ctx scores2 direct spread total
        tier).activation_scores,
      ctx.activation_threshold ≤ p.2.final_score ∧ ScoreWellFormed p.2) := by
  refine ⟨rfl, ?_, ?_⟩
  · simp only [buildResult]
    rw [List.length_take]
    exact min_le_left _ _
  · intro p hp
    simp only [buildResult] at hp
    have hp2 := List.mem_of_mem_take hp
    have hp3 := List.mem_filter.mp hp2
    refine ⟨of_decide_eq_true hp3.2, ?_⟩
    have hp4 : p ∈ scores2 := by
      have := hp3.1
      simp only [rank_scores] at this
      exact List.mem_mergeSort.mp this
    exact hwf p hp4

theorem spreadOut_wellFormed (env : ActivationEnv) (now : Int)
    (lambda_ beta : Real) (enable : Bool)
    (sd : Dict ActivationScore × List String) (mm : Dict Memory)
    (Henv : EnvStrengthNonneg env) (hmm : ∀ p ∈ mm, 0 ≤ p.2.strength)
    (hsdwf : ∀ q ∈ sd.1, ScoreWellFormed q.2) :
    ∀ p ∈ (if enable then
        match apply_spreading_activation env now lambda_ beta sd.2 sd.1 mm with
        | (st, none) => (st.activation_scores, st.spread_matches, "full")
        | (st, some _) => (st.activation_scores, [], "keyword_only")
      else (sd.1, [], "full")).1, ScoreWellFormed p.2 := by
  intro p hp
  have hF : ∀ f ∈ directFinals sd.1 sd.2, 0 ≤ f ∧ f ≤ 1 :=
    directFinals_bounds sd.1 sd.2 hsdwf
  by_cases he : enable
  · rw [if_pos he] at hp
    have hspec := apply_spreading_spec env now lambda_ beta sd.2 sd.1 mm Henv hmm
    cases happ : apply_spreading_activation env now lambda_ beta sd.2 sd.1 mm with
    | mk stF err =>
      rw [happ] at hp hspec
      obtain ⟨⟨i1, _, _, _, _, _, _⟩, _⟩ := hspec
      have hpmem : p ∈ stF.activation_scores := by
        cases err with
        | none => exact hp
        | some e => exact hp
      rcases i1 p hpmem with h2 | h2
      · exact hsdwf p h2
      · exact spreadEntryProp_wellFormed _ _ hF h2
  · rw [if_neg he] at hp
    exact hsdwf p hp

theorem activateCore_ok_shape (env : ActivationEnv) (now : Int)
    (lambda_ beta : Real) (ctx : ActivationContext) (r : ActivationResult)
    (Henv : EnvStrengthNonneg env)
    (hcore : activateCore env now lambda_ beta ctx = .ok r) :
    r.activated_memories = r.activation_scores.map Prod.fst ∧
    r.activation_scores.length ≤ ctx.max_memories ∧
    (∀ p ∈ r.activation_scores,
      ctx.activation_threshold ≤ p.2.final_score ∧ ScoreWellFormed p.2) := by
  unfold activateCore at hcore
  cases hk : stage_keywords env ctx with
  | error e =>
    rw [hk] at hcore
    simp only [bind, Except.bind] at hcore
    exact Except.noConfusion hcore
  | ok kws =>
    rw [hk] at hcore
    simp only [bind, Except.bind] at hcore
    by_cases hc : stage_candidates env.graph ctx kws = []
    · rw [if_pos hc] at hcore
      simp only [pure, Except.pure] at hcore
      cases hcore
      refine ⟨rfl, by simp [emptyActivationResult], ?_⟩
      intro p hp
      exact absurd hp (List.not_mem_nil p)
    · rw [if_neg hc] at hcore
      cases hf : fetch_memories env (stage_candidates env.graph ctx kws) with
      | error e =>
        rw [hf] at hcore
        simp only [bind, Except.bind] at hcore
        exact Except.noConfusion hcore
      | ok mm =>
        rw [hf] at hcore
        simp only [bind, Except.bind] at hcore
        cases hsd : score_direct env now lambda_ beta kws mm with
        | error e =>
          rw [hsd] at hcore
          simp only [bind, Except.bind] at hcore
          exact Except.noConfusion hcore
        | ok sd =>
          rw [hsd] at hcore
          simp only [bind, Except.bind, pure, Except.pure] at hcore
          cases hcore
          have hmm2 := fetch_memories_strength env Henv _ mm hf
          have hsdwf := score_direct_wellFormed env now lambda_ beta kws mm
            sd hmm2 hsd
          have hwf := spreadOut_wellFormed env now lambda_ beta
            ctx.enable_spreading sd mm Henv hmm2 hsdwf
          exact buildResult_spec ctx _ _ _ _ _ hwf

/-! ## Claim C2 — activation bounds -/

/-- C2: `ActivationScore.calculate` on components in `[0,1]` produces
`final_score = min(0.5·base + 0.3·temporal + 0.2·spreading, 1.0)` lying in
`[0,1]`; and for every context (given that stored strengths are
nonnegative, as the pydantic model enforces), `activate` returns at most
`max_memories` memories, every returned score is at least
`activation_threshold`, and every returned final score lies in `[0,1]`. -/
theorem claim_C2 :
    (∀ (memory_id : String) (b t s : Real) (src : ActivationSource)
      (mk : List String),
      0 ≤ b → b ≤ 1 → 0 ≤ t → t ≤ 1 → 0 ≤ s → s ≤ 1 →
      (ActivationScore.calculate memory_id b t s src mk).final_score
        = min (0.5 * b + 0.3 * t + 0.2 * s) 1 ∧
      0 ≤ (ActivationScore.calculate memory_id b t s src mk).final_score ∧
      (ActivationScore.calculate memory_id b t s src mk).final_score ≤ 1) ∧
    (∀ (env : ActivationEnv) (now : Int) (lambda_ beta : Real)
      (ctx : ActivationContext), EnvStrengthNonneg env →
      (activate env now lambda_ beta ctx).activated_memories.length
        ≤ ctx.max_memories ∧
      (activate env now lambda_ beta ctx).activated_memories
        = (activate env now lambda_ beta ctx).activation_scores.map Prod.fst ∧
      (∀ p ∈ (activate env now lambda_ beta ctx).activation_scores,
        ctx.activation_threshold ≤ p.2.final_score ∧
        0 ≤ p.2.final_score ∧ p.2.final_score ≤ 1)) := by
  constructor
  · intro memory_id b t s src mk hb0 hb1 ht0 ht1 hs0 hs1
    have hwf := activationCalculate_wellFormed memory_id b t s src mk
      hb0 hb1 ht0 ht1 hs0 hs1
    have hbd := scoreWellFormed_final_bounds _ hwf
    exact ⟨rfl, hbd.1, hbd.2⟩
  · intro env now lambda_ beta ctx Henv
    cases hcore : activateCore env now lambda_ beta ctx with
    | error e =>
      have ha : activate env now lambda_ beta ctx
          = emptyActivationResult ("error") := by
        simp [activate, hcore]
      rw [ha]
      refine ⟨by simp [emptyActivationResult], rfl, ?_⟩
      intro p hp
      exact absurd hp (List.not_mem_nil p)
    | ok r =>
      have ha : activate env now lambda_ beta ctx = r := by
        simp [activate, hcore]
      rw [ha]
      obtain ⟨s1, s2, s3⟩ := activateCore_ok_shape env now lambda_ beta ctx r
        Henv hcore
      refine ⟨?_, s1, ?_⟩
      · rw [s1, List.length_map]
        exact s2
      · intro p hp
        obtain ⟨hth, hwf⟩ := s3 p hp
        have hbd := scoreWellFormed_final_bounds _ hwf
        exact ⟨hth, hbd.1, hbd.2⟩

/-- C2 witness: part one applied at components `(1/2, 1/2, 1/2)`, part two
applied to the failing-extractor environment and a keyword-free context
(the pipeline degrades to the empty error-tier result, which satisfies
every bound). -/
theorem claim_C2_witness :
    ((ActivationScore.calculate ("m") (1/2) (1/2) (1/2) .direct []).final_score
      = min (0.5 * (1/2) + 0.3 * (1/2) + 0.2 * (1/2)) 1 ∧
    0 ≤ (ActivationScore.calculate ("m") (1/2) (1/2) (1/2)
      .direct []).final_score ∧
    (ActivationScore.calculate ("m") (1/2) (1/2) (1/2)
      .direct []).final_score ≤ 1) ∧
    ((activate failEnv 0 1 1 ctxEmptyKw).activated_memories.length
      ≤ ctxEmptyKw.max_memories ∧
    (activate failEnv 0 1 1 ctxEmptyKw).activated_memories
      = (activate failEnv 0 1 1 ctxEmptyKw).activation_scores.map Prod.fst ∧
    (∀ p ∈ (activate failEnv 0 1 1 ctxEmptyKw).activation_scores,
      ctxEmptyKw.activation_threshold ≤ p.2.final_score ∧
      0 ≤ p.2.final_score ∧ p.2.final_score ≤ 1)) :=
  ⟨claim_C2.1 ("m") (1/2) (1/2) (1/2) .direct [] (by norm_num) (by norm_num)
      (by norm_num) (by norm_num) (by norm_num) (by norm_num),
    claim_C2.2 failEnv 0 1 1 ctxEmptyKw
      (by intro id m h; simp [failEnv] at h)⟩

/-! ## Claim C4 — activation never propagates exceptions -/

/-- C4: `activate` is total — its outer handler maps any unhandled
failure to the empty result with tier `error`, and the inner handler
around spreading downgrades to `keyword_only`.  Concretely: when the
pipeline reaches spreading and spreading raises, the result is exactly the
ranking of the scores dict as mutated so far, with
`fallback_tier = "keyword_only"`, `spread_matches = []`, the direct
matches still reported and their scores untouched by the failed spreading
pass; and when keyword extraction, memory fetching or direct scoring
raises, the result is the empty `error`-tier result. -/
theorem claim_C4 (env : ActivationEnv) (now : Int) (lambda_ beta : Real)
    (ctx : ActivationContext) :
    (∀ (kws : List String) (mm : Dict Memory)
      (sd : Dict ActivationScore × List String) (stF : SpreadState) (e : String),
      EnvStrengthNonneg env →
      stage_keywords env ctx = .ok kws →
      ¬(stage_candidates env.graph ctx kws = []) →
      fetch_memories env (stage_candidates env.graph ctx kws) = .ok mm →
      score_direct env now lambda_ beta kws mm = .ok sd →
      ctx.enable_spreading = true →
      apply_spreading_activation env now lambda_ beta sd.2 sd.1 mm
        = (stF, some e) →
      activate env now lambda_ beta ctx
        = buildResult ctx stF.activation_scores sd.2 []
            (stage_candidates env.graph ctx kws).length ("keyword_only") ∧
      (activate env now lambda_ beta ctx).fallback_tier = "keyword_only" ∧
      (activate env now lambda_ beta ctx).spread_matches = [] ∧
      (activate env now lambda_ beta ctx).direct_matches = sd.2 ∧
      (∀ k ∈ sd.2, dlookup stF.activation_scores k = dlookup sd.1 k)) ∧
    (∀ e, stage_keywords env ctx = .error e →
      activate env now lambda_ beta ctx = emptyActivationResult ("error")) ∧
    (∀ kws e, stage_keywords env ctx = .ok kws →
      ¬(stage_candidates env.graph ctx kws = []) →
      fetch_memories env (stage_candidates env.graph ctx kws) = .error e →
      activate env now lambda_ beta ctx = emptyActivationResult ("error")) ∧
    (∀ kws mm e, stage_keywords env ctx = .ok kws →
      ¬(stage_candidates env.graph ctx kws = []) →
      fetch_memories env (stage_candidates env.graph ctx kws) = .ok mm →
      score_direct env now lambda_ beta kws mm = .error e →
      activate env now lambda_ beta ctx = emptyActivationResult ("error")) := by
  refine ⟨?_, ?_, ?_, ?_⟩
  · intro kws mm sd stF e Henv hk hc hf hsd hen happ
    have hmain : activateCore env now lambda_ beta ctx
        = .ok (buildResult ctx stF.activation_scores sd.2 []
            (stage_candidates env.graph ctx kws).length ("keyword_only")) := by
      unfold activateCore
      rw [hk]
      simp only [bind, Except.bind]
      rw [if_neg hc, hf]
      simp only [bind, Except.bind]
      rw [hsd]
      simp only [bind, Except.bind]
      rw [hen, happ]
      rfl
    have ha : activate env now lambda_ beta ctx
        = buildResult ctx stF.activation_scores sd.2 []
            (stage_candidates env.graph ctx kws).length ("keyword_only") := by
      simp [activate, hmain]
    have hmm2 := fetch_memories_strength env Henv _ mm hf
    have hspec := (apply_spreading_spec env now lambda_ beta sd.2 sd.1 mm
      Henv hmm2).2
    rw [happ] at hspec
    refine ⟨ha, ?_, ?_, ?_, hspec⟩ <;> rw [ha] <;> rfl
  · intro e hk
    have hmain : activateCore env now lambda_ beta ctx = .error e := by
      unfold activateCore
      rw [hk]
      simp only [bind, Except.bind]
    simp [activate, hmain]
  · intro kws e hk hc hf
    have hmain : activateCore env now lambda_ beta ctx = .error e := by
      unfold activateCore
      rw [hk]
      simp only [bind, Except.bind]
      rw [if_neg hc, hf]
    simp [activate, hmain]
  · intro kws mm e hk hc hf hsd
    have hmain : activateCore env now lambda_ beta ctx = .error e := by
      unfold activateCore
      rw [hk]
      simp only [bind, Except.bind]
      rw [if_neg hc, hf]
      simp only [bind, Except.bind]
      rw [hsd]
    simp [activate, hmain]

/-- C4 witness: the theorem applied to the fixture where spreading raises
on `get_memory("b")` (keyword-only degradation with the direct match `a`
intact), and to the fixture whose keyword extractor raises (empty
error-tier result). -/
theorem claim_C4_witness :
    (activate kbEnv 0 1 1 ctxSpread
      = buildResult ctxSpread kbStF.activation_scores kbSd.2 []
          (stage_candidates kbEnv.graph ctxSpread ["x"]).length
          ("keyword_only") ∧
    (activate kbEnv 0 1 1 ctxSpread).fallback_tier = "keyword_only" ∧
    (activate kbEnv 0 1 1 ctxSpread).spread_matches = [] ∧
    (activate kbEnv 0 1 1 ctxSpread).direct_matches = kbSd.2 ∧
    (∀ k ∈ kbSd.2,
      dlookup kbStF.activation_scores k = dlookup kbSd.1 k)) ∧
    activate failEnv 0 1 1 ctxEmptyKw = emptyActivationResult ("error") :=
  ⟨(claim_C4 kbEnv 0 1 1 ctxSpread).1 ["x"] [("a", sampleMem)] kbSd kbStF
      ("boom")
      (by
        intro id m h
        by_cases h1 : id = "a"
        · simp [kbEnv, h1] at h
          rw [← h]
          norm_num [sampleMem]
        · simp [kbEnv, h1] at h)
      rfl
      (by simp [show stage_candidates kbEnv.graph ctxSpread ["x"] = ["a"]
        from rfl])
      rfl rfl rfl rfl,
    (claim_C4 failEnv 0 1 1 ctxEmptyKw).2.1 ("extract failed") rfl⟩

end Mnemex

